import Mathlib

/-!
# Maze_runner: a verification development

Shallow embedding of the maze generator (`MazeGenerator.cpp`), of the
first-person camera controller (`CameraController.cpp`) and of the size
clamp in `Main.cpp`, followed by theorems about them.

Conventions of the embedding
* C++ `int` values are `Int`; the programs never leave the range where
  machine overflow would matter (sizes are at most 51).
* `std::vector<std::vector<CellType>>` is `List (List CellType)`; a read
  `maze[x][y]` is `cellAt maze x y : Option CellType`, which is `none`
  exactly where the C++ read would be outside the vectors.
* `rand()` is the next element of a stream `draws : Nat → Nat`; the state
  of the generator is the position reached in the stream.
* `float`/`double` coordinates are exact rationals (`ℚ`) and the arithmetic
  on them is exact. The conversion of a `double` to the `float` parameter of
  `getMazeIndex` is modelled by `toFloat`, in `Narrowed.checkMove`.
* `checkIfFinsihed` reads `mazeVec[x][y]` without a bounds test: `Strict.checkIfFinsihed`,
  `Strict.handle` and `Strict.handleAll` return `none` where that read is outside
  the vectors, and `checkIfFinsihed`, `handle` and `handleAll` are their total
  versions.
* The recursion of `generateMaze` is bounded by a fuel argument; the
  constructor supplies `size * size + 1`, which is shown to be enough.
-/

namespace MazeRunner

/-! ## Grid model (`MazeGenerator.h`) -/

/-- Cell tags, `enum CellType`. -/
inductive CellType
  | PATH
  | WALL
  | START
  | END
  deriving DecidableEq, Repr

/-- The grid, `std::vector<std::vector<CellType>>`. -/
abbrev Maze := List (List CellType)

/-- The read `maze[x][y]`; `none` where the read is out of range. -/
def cellAt (maze : Maze) (x y : Int) : Option CellType :=
  if x < 0 ∨ y < 0 then none
  else match maze.get? x.toNat with
    | none => none
    | some row => row.get? y.toNat

/-- The write `maze[x][y] = v` (no effect where the write is out of range). -/
def setCell (maze : Maze) (x y : Int) (v : CellType) : Maze :=
  if x < 0 ∨ y < 0 then maze
  else match maze.get? x.toNat with
    | none => maze
    | some row => maze.set x.toNat (row.set y.toNat v)

/-! ## Maze generator (`MazeGenerator.cpp`) -/

/-- Embedding of `MazeGenerator::isValidPosition`. -/
def isValidPosition (size : Int) (maze : Maze) (x y : Int) : Bool :=
  decide (x ≥ 0) && decide (x < size) && decide (y ≥ 0) && decide (y < size)
    && decide (cellAt maze x y = some CellType.WALL)

/-- Embedding of `MazeGenerator::hasThreeWalls`: counts the `PATH` neighbours. -/
def hasThreeWalls (size : Int) (maze : Maze) (x y : Int) : Bool :=
  let walls : Nat := 0
  let walls := if x > 0 ∧ cellAt maze (x - 1) y = some CellType.PATH then walls + 1 else walls
  let walls := if x < size - 1 ∧ cellAt maze (x + 1) y = some CellType.PATH then walls + 1 else walls
  let walls := if y > 0 ∧ cellAt maze x (y - 1) = some CellType.PATH then walls + 1 else walls
  let walls := if y < size - 1 ∧ cellAt maze x (y + 1) = some CellType.PATH then walls + 1 else walls
  decide (walls ≥ 3)

/-- The three-assignment swap `tmp = d[i]; d[i] = d[j]; d[j] = tmp`. -/
def swapAt (d : List Int) (i j : Nat) : List Int :=
  let tmp := d.getD i 0
  let d := d.set i (d.getD j 0)
  d.set j tmp

/-- One iteration of the shuffling loop of `generateMaze`: draws
`randomIndex = rand() % 4` and swaps slots `i` and `randomIndex` of both
direction arrays. The state is `(dirX, dirY, position in the stream)`. -/
def shuffleStep (draws : Nat → Nat) (st : List Int × List Int × Nat) (i : Nat) :
    List Int × List Int × Nat :=
  let randomIndex := draws st.2.2 % 4
  (swapAt st.1 i randomIndex, swapAt st.2.1 i randomIndex, st.2.2 + 1)

/-- The shuffling loop `for (i = 0; i < 4; ++i)` started from
`dirX = {0, 0, 1, -1}` and `dirY = {1, -1, 0, 0}`. -/
def shuffleDirs (draws : Nat → Nat) (k : Nat) : List Int × List Int × Nat :=
  [0, 1, 2, 3].foldl (shuffleStep draws) ([0, 0, 1, -1], [1, -1, 0, 0], k)

/-- Body of the exploration loop of `generateMaze` for one direction
`(dx, dy)`; `gen` is the recursive call. The state is the grid and the
position in the stream of draws. -/
def exploreDir (gen : Int → Int → Maze → Nat → Option (Maze × Nat)) (size x y dx dy : Int)
    (st : Maze × Nat) : Option (Maze × Nat) :=
  let newX := x + 2 * dx
  let newY := y + 2 * dy
  if isValidPosition size st.1 newX newY && !hasThreeWalls size st.1 newX newY then
    gen newX newY (setCell st.1 (x + dx) (y + dy) CellType.PATH) st.2
  else
    some st

/-- Embedding of `MazeGenerator::generateMaze(x, y)` on grid `maze`, reading the draws
from position `k`. The first argument bounds the recursion depth; `none`
means the bound was reached. -/
def generateMaze (size : Int) (draws : Nat → Nat) :
    Nat → Int → Int → Maze → Nat → Option (Maze × Nat)
  | 0, _, _, _, _ => none
  | fuel + 1, x, y, maze, k =>
    let maze := setCell maze x y CellType.PATH
    let dirs := shuffleDirs draws k
    [0, 1, 2, 3].foldlM
      (fun st i => exploreDir (generateMaze size draws fuel) size x y
        (dirs.1.getD i 0) (dirs.2.1.getD i 0) st)
      (maze, dirs.2.2)

/-- The all-`WALL` grid allocated by the constructor. -/
def allWalls (size : Int) : Maze :=
  List.replicate size.toNat (List.replicate size.toNat CellType.WALL)

/-- Embedding of `MazeGenerator::MazeGenerator(size, x, y)`: the grid held by the object
once the constructor has run (`printMaze` only writes to the console). -/
def MazeGenerator (size x y : Int) (draws : Nat → Nat) : Option Maze :=
  match generateMaze size draws (size.toNat * size.toNat + 1) x y (allWalls size) 0 with
  | none => none
  | some (maze, _) =>
    let maze := setCell maze x y CellType.START
    let maze := setCell maze (size - 1) (size - (y + 1)) CellType.END
    some maze

/-! ## Size clamp (`Main.cpp`) -/

/-- The constant `MAX_MAZE`. -/
def MAX_MAZE : Int := 50

/-- The value of `MAZE_SIZE` after the `if (argc > 1)` block of `main`,
where `arg` is the result of `std::atoi(argv[1])`. -/
def mazeSizeOfArg (arg : Int) : Int :=
  let s := max 5 arg
  let s := min s MAX_MAZE
  if Int.tmod s 2 = 0 then s + 1 else s

/-! ## Camera controller (`CameraController.h`, `CameraController.cpp`) -/

/-- Positions and movement vectors, `osg::Vec3` / `osg::Vec3d`, with exact
rational components. -/
structure Vec3 where
  x : ℚ
  y : ℚ
  z : ℚ
  deriving DecidableEq

/-- Component-wise sum, `operator+=` of `osg::Vec3d`. -/
def Vec3.add (a b : Vec3) : Vec3 := ⟨a.x + b.x, a.y + b.y, a.z + b.z⟩

/-- The constant `moveStep = 0.02`. -/
def moveStep : ℚ := 2 / 100

/-- The constant `rotateAngle = 2.0` (degrees). -/
def rotateAngle : ℚ := 2

/-- The constant `zPos = 0.25`. -/
def zPos : ℚ := 25 / 100

/-- The constant `distanceFromWall = 0.15`. -/
def distanceFromWall : ℚ := 15 / 100

/-- The function `std::round`: the nearest integer, halves rounded away from zero. -/
def cRound (v : ℚ) : Int :=
  if 0 ≤ v then ⌊v + 1 / 2⌋ else -⌊-v + 1 / 2⌋

/-- The value `fmod(v, 1.0)`: `v` minus its truncation toward zero (the result has
the sign of `v`). -/
def fmodOne (v : ℚ) : ℚ :=
  if 0 ≤ v then v - ⌊v⌋ else v - ⌈v⌉

/-- Embedding of `CameraController::getMazeIndex` on the value of its `float`
parameter: `static_cast<int>(std::round(val))`. -/
def getMazeIndex (val : ℚ) : Int := cRound val

/-- Embedding of `CameraController::checkMove` in exact arithmetic: the coordinates
are rounded as they are. The conversion of the `double` coordinates to the
`float` parameter of `getMazeIndex` is part of `Narrowed.checkMove` below; the
two functions agree on the coordinates that the conversion leaves alone. -/
def checkMove (mazeVec : Maze) (pos : Vec3) : Bool :=
  let x := getMazeIndex pos.x
  let y := getMazeIndex pos.y
  if x ≥ 0 ∧ x < (mazeVec.length : Int) ∧ y ≥ 0 ∧ y < ((mazeVec.getD 0 []).length : Int) then
    if cellAt mazeVec x y = some CellType.WALL then false else true
  else
    false

/-- Embedding of `CameraController::stepBackFromWall`. -/
def stepBackFromWall (pos : ℚ) : ℚ :=
  let decimalPart := fmodOne pos
  let floorPos : ℚ := ⌊pos⌋
  if decimalPart ≥ 1 / 2 ∧ decimalPart ≤ 1 / 2 + distanceFromWall then
    floorPos + 1 / 2 + distanceFromWall
  else if decimalPart ≥ 0 ∧ decimalPart ≤ distanceFromWall then
    floorPos + distanceFromWall
  else if decimalPart ≥ 1 - distanceFromWall then
    (⌈pos⌉ : ℚ) - distanceFromWall
  else if decimalPart ≤ 1 / 2 ∧ decimalPart ≥ 1 / 2 - distanceFromWall then
    floorPos + 1 / 2 - distanceFromWall
  else
    pos

/-- The lambda `checkAndAdjust` of `correctDistanceFromWalls` for one axis.
`probe c` is `checkMove(camPosCopy)` with the copy's coordinate on this axis
equal to `c`; the result is the pair of the final values of `camPosCoord`
and `camPosCopyCoord`. -/
def checkAndAdjust (probe : ℚ → Bool) (checkDistance camPosCoord camPosCopyCoord : ℚ) : ℚ × ℚ :=
  let camPosCopyCoord := camPosCopyCoord + checkDistance
  let camPosCoord := if !probe camPosCopyCoord then stepBackFromWall camPosCoord else camPosCoord
  let camPosCopyCoord := camPosCopyCoord - 2 * checkDistance
  if !probe camPosCopyCoord then
    (stepBackFromWall camPosCoord, camPosCopyCoord + checkDistance)
  else
    (camPosCoord, camPosCopyCoord)

/-- Embedding of `CameraController::correctDistanceFromWalls`. -/
def correctDistanceFromWalls (mazeVec : Maze) (pos : Vec3) : Vec3 :=
  let camPosCopy := pos
  let checkDistance := distanceFromWall + 1 / 100
  let rx := checkAndAdjust (fun c => checkMove mazeVec { camPosCopy with x := c })
    checkDistance pos.x camPosCopy.x
  let pos := { pos with x := rx.1 }
  let camPosCopy := { camPosCopy with x := rx.2 }
  let ry := checkAndAdjust (fun c => checkMove mazeVec { camPosCopy with y := c })
    checkDistance pos.y camPosCopy.y
  { pos with y := ry.1 }

/-- The event kinds of `osgGA::GUIEventAdapter::EventType` that the
controller can be handed. -/
inductive EventType
  | PUSH
  | RELEASE
  | DOUBLECLICK
  | DRAG
  | MOVE
  | KEYDOWN
  | KEYUP
  | FRAME
  | RESIZE
  | SCROLL
  deriving DecidableEq

/-- What `handle` reads of a `GUIEventAdapter`: `getEventType()` and
`getKey()`. -/
structure Event where
  eventType : EventType
  key : Int
  deriving DecidableEq

/-- Key code of the character w. -/
def keyW : Int := 119
/-- Key code of the character s. -/
def keyS : Int := 115
/-- Key code of the character a. -/
def keyA : Int := 97
/-- Key code of the character d. -/
def keyD : Int := 100
/-- Key code of the character e. -/
def keyE : Int := 101
/-- Key code of the character q. -/
def keyQ : Int := 113

/-- The camera matrix as `handle` uses it: its translation (`getTrans`,
`setTrans`) and its rotation (`getRotate`, `setRotate`); `Q` is the type of
`osg::Quat` values. -/
structure Pose (Q : Type) where
  trans : Vec3
  rot : Q

/-- Operations of the OpenSceneGraph library that `handle` calls; the
library is not part of the repository, so they are parameters.
* `baseHandle` is the effect of `FirstPersonManipulator::handle(ea, aa)` on
  the manipulator's matrix;
* `quatMul a b` is the value of `a` after `a *= b`;
* `zAxisQuat deg` is `osg::Quat(osg::DegreesToRadians(deg), osg::Z_AXIS)`;
* `rotateVec q v` is `q * v`. -/
structure OsgOps (Q : Type) where
  baseHandle : Event → Pose Q → Pose Q
  quatMul : Q → Q → Q
  zAxisQuat : ℚ → Q
  rotateVec : Q → Vec3 → Vec3

/-- The members of `CameraController`. `viewer` is `none` for a null
`viewer` pointer and otherwise holds the matrix of the viewer's camera
manipulator (`getMatrix()` / `setByMatrix`), which is the controller
itself once `setupViewer` has run. -/
structure CameraController (Q : Type) where
  viewer : Option (Pose Q)
  movement : Vec3
  mazeVec : Maze
  foundExitFlag : Bool

/-- Embedding of `CameraController::CameraController`. -/
def CameraController.new {Q : Type} (inputViewer : Option (Pose Q)) (inputMazeVec : Maze) :
    CameraController Q :=
  { viewer := inputViewer, movement := ⟨0, 0, 0⟩, mazeVec := inputMazeVec, foundExitFlag := false }

/-- Embedding of `CameraController::checkIfFinsihed`, made total: the returned flag
and the controller after the call, a read of `mazeVec[x][y]` outside the
vectors (undefined in the source, which makes the read without a bounds
test) being taken to yield a tag other than `END`. The function
`Strict.checkIfFinsihed` below returns `none` there. -/
def checkIfFinsihed {Q : Type} (self : CameraController Q) (pos : Vec3) :
    Bool × CameraController Q :=
  let x := getMazeIndex pos.x
  let y := getMazeIndex pos.y
  if cellAt self.mazeVec x y = some CellType.END then
    (true, { self with foundExitFlag := true })
  else
    (false, self)

/-- Embedding of `CameraController::checkExit`. -/
def checkExit {Q : Type} (self : CameraController Q) : Bool := self.foundExitFlag

/-- The `KEYDOWN` branch of the switch in `handle`, acting on `movement`,
`camRotation` and `matrix`. -/
def onKeyDown {Q : Type} (ops : OsgOps Q) (key : Int) (st : Vec3 × Q × Pose Q) : Vec3 × Q × Pose Q :=
  let movement := st.1
  let camRotation := st.2.1
  let matrix := st.2.2
  if key = keyW then ({ movement with z := -moveStep }, camRotation, matrix)
  else if key = keyS then ({ movement with z := moveStep }, camRotation, matrix)
  else if key = keyA then ({ movement with x := -moveStep }, camRotation, matrix)
  else if key = keyD then ({ movement with x := moveStep }, camRotation, matrix)
  else if key = keyE then
    let camRotation := ops.quatMul camRotation (ops.zAxisQuat (-rotateAngle))
    (movement, camRotation, { matrix with rot := camRotation })
  else if key = keyQ then
    let camRotation := ops.quatMul camRotation (ops.zAxisQuat rotateAngle)
    (movement, camRotation, { matrix with rot := camRotation })
  else (movement, camRotation, matrix)

/-- The `KEYUP` branch of the switch in `handle`. -/
def onKeyUp {Q : Type} (key : Int) (st : Vec3 × Q × Pose Q) : Vec3 × Q × Pose Q :=
  let movement := st.1
  if key = keyW then ({ movement with z := 0 }, st.2)
  else if key = keyS then ({ movement with z := 0 }, st.2)
  else if key = keyA then ({ movement with x := 0 }, st.2)
  else if key = keyD then ({ movement with x := 0 }, st.2)
  else st

/-- The `switch (ea.getEventType())` statement of `handle`, acting on
`movement`, `camRotation` and `matrix`. -/
def keySwitch {Q : Type} (ops : OsgOps Q) (ea : Event) (st : Vec3 × Q × Pose Q) :
    Vec3 × Q × Pose Q :=
  match ea.eventType with
  | EventType.KEYDOWN => onKeyDown ops ea.key st
  | EventType.KEYUP => onKeyUp ea.key st
  | _ => st

/-- Embedding of `CameraController::handle`, made total through `checkIfFinsihed`: the
returned boolean and the controller after the call. The function
`Strict.handle` below returns `none` where the call makes the out-of-range read
of `checkIfFinsihed`, and this value otherwise. -/
def handle {Q : Type} (ops : OsgOps Q) (self : CameraController Q) (ea : Event) :
    Bool × CameraController Q :=
  let self := { self with viewer := self.viewer.map (ops.baseHandle ea) }
  match self.viewer with
  | none => (false, self)
  | some matrix =>
    if ea.eventType = EventType.MOVE ∨ ea.eventType = EventType.DRAG then (true, self)
    else
      let camPos := matrix.trans
      let fin := checkIfFinsihed self camPos
      if fin.1 then (true, fin.2)
      else
        let self := fin.2
        let camRotation := matrix.rot
        let isMoved := true
        let st := keySwitch ops ea (self.movement, camRotation, matrix)
        let movement := st.1
        let camRotation := st.2.1
        let matrix := st.2.2
        let camPos := camPos.add (ops.rotateVec camRotation movement)
        let camPos := { camPos with z := zPos }
        let matrix :=
          if checkMove self.mazeVec camPos && isMoved then
            { matrix with trans := correctDistanceFromWalls self.mazeVec camPos }
          else matrix
        (true, { self with movement := movement, viewer := some matrix })

/-- The controller after a sequence of events has been handled in order. -/
def handleAll {Q : Type} (ops : OsgOps Q) (self : CameraController Q) (eas : List Event) :
    CameraController Q :=
  eas.foldl (fun c ea => (handle ops c ea).2) self

/-! ## Single precision at the call of `getMazeIndex`

`getMazeIndex` takes a `float`, and `checkMove` hands it the `double`
coordinates of an `osg::Vec3d`: the argument is converted to single
precision before it is rounded. -/

/-- The nearest integer, a half being rounded to the even neighbour (the
rounding of the IEEE 754 conversions). -/
def roundHalfEven (q : ℚ) : Int :=
  let f := ⌊q⌋
  if q - f < 1 / 2 then f
  else if 1 / 2 < q - f then f + 1
  else if f % 2 = 0 then f else f + 1

/-- The conversion of a `double` to `float` (IEEE 754 binary32, round to
nearest, ties to even): 24 significant bits, and the spacing `2 ^ (-149)`
below `2 ^ (-126)`. Overflow to infinity, which needs a magnitude of
`2 ^ 128`, is not modelled. -/
def toFloat (v : ℚ) : ℚ :=
  let e := max (Int.log 2 |v|) (-126)
  let ulp : ℚ := 2 ^ (e - 23)
  roundHalfEven (v / ulp) * ulp

/-- The call `getMazeIndex(v)` on a `double` value, as `checkMove` makes it:
the value is converted to the `float` parameter, then rounded. -/
def Narrowed.getMazeIndex (val : ℚ) : Int := MazeRunner.getMazeIndex (toFloat val)

/-- Embedding of `CameraController::checkMove` on `double` coordinates, the conversion
to `float` at the two calls of `getMazeIndex` included. -/
def Narrowed.checkMove (mazeVec : Maze) (pos : Vec3) : Bool :=
  let x := Narrowed.getMazeIndex pos.x
  let y := Narrowed.getMazeIndex pos.y
  if x ≥ 0 ∧ x < (mazeVec.length : Int) ∧ y ≥ 0 ∧ y < ((mazeVec.getD 0 []).length : Int) then
    if cellAt mazeVec x y = some CellType.WALL then false else true
  else
    false

/-- The rounding of the specification: `n` is `round(v)`, the integer
nearest to `v`, a half being rounded away from zero. -/
def IsRoundOf (v : ℚ) (n : Int) : Prop :=
  |v - n| < 1 / 2 ∨ (|v - n| = 1 / 2 ∧ |v| < |(n : ℚ)|)

/-! ## The unguarded read of `checkIfFinsihed`

`checkIfFinsihed` reads `mazeVec[x][y]` without a bounds test. Where the
rounded cell of the position is outside the vectors the read is undefined
behaviour; the functions `Strict.checkIfFinsihed`, `Strict.handle` and `Strict.handleAll`
return `none` there. The functions `checkIfFinsihed`, `handle` and `handleAll`
above read such a cell as a cell that is not `END`; they agree with the
strict ones wherever these are defined. -/

/-- Embedding of `CameraController::checkIfFinsihed`: the returned flag and the
controller after the call, or `none` where the read `mazeVec[x][y]` is
outside the vectors. -/
def Strict.checkIfFinsihed {Q : Type} (self : CameraController Q) (pos : Vec3) :
    Option (Bool × CameraController Q) :=
  let x := getMazeIndex pos.x
  let y := getMazeIndex pos.y
  match cellAt self.mazeVec x y with
  | none => none
  | some cell =>
    if cell = CellType.END then
      some (true, { self with foundExitFlag := true })
    else
      some (false, self)

/-- Embedding of `CameraController::handle`: the returned boolean and the controller
after the call, or `none` where the call makes the out-of-range read of
`checkIfFinsihed`. -/
def Strict.handle {Q : Type} (ops : OsgOps Q) (self : CameraController Q) (ea : Event) :
    Option (Bool × CameraController Q) :=
  let self := { self with viewer := self.viewer.map (ops.baseHandle ea) }
  match self.viewer with
  | none => some (false, self)
  | some matrix =>
    if ea.eventType = EventType.MOVE ∨ ea.eventType = EventType.DRAG then some (true, self)
    else
      let camPos := matrix.trans
      match Strict.checkIfFinsihed self camPos with
      | none => none
      | some fin =>
        if fin.1 then some (true, fin.2)
        else
          let self := fin.2
          let camRotation := matrix.rot
          let isMoved := true
          let st := keySwitch ops ea (self.movement, camRotation, matrix)
          let movement := st.1
          let camRotation := st.2.1
          let matrix := st.2.2
          let camPos := camPos.add (ops.rotateVec camRotation movement)
          let camPos := { camPos with z := zPos }
          let matrix :=
            if checkMove self.mazeVec camPos && isMoved then
              { matrix with trans := correctDistanceFromWalls self.mazeVec camPos }
            else matrix
          some (true, { self with movement := movement, viewer := some matrix })

/-- The controller after a sequence of events has been handled in order, or
`none` if one of the calls makes the out-of-range read. -/
def Strict.handleAll {Q : Type} (ops : OsgOps Q) (self : CameraController Q) (eas : List Event) :
    Option (CameraController Q) :=
  eas.foldlM (fun c ea => (Strict.handle ops c ea).map Prod.snd) self

/-! ## Auxiliary notions used by the statements -/

/-- The pose that `handle` reads with `getMatrix()`: the manipulator's
matrix once the inherited `FirstPersonManipulator::handle` has run. -/
def poseRead {Q : Type} (ops : OsgOps Q) (self : CameraController Q) (ea : Event) :
    Option (Pose Q) :=
  self.viewer.map (ops.baseHandle ea)

/-- The prospective position of `handle`: the position read plus the
movement vector (after the key switch) rotated by the orientation (after
the key switch), with `z` pinned to `zPos`. -/
def prospectivePos {Q : Type} (ops : OsgOps Q) (self : CameraController Q) (ea : Event)
    (matrix : Pose Q) : Vec3 :=
  let st := keySwitch ops ea (self.movement, matrix.rot, matrix)
  { matrix.trans.add (ops.rotateVec st.2.1 st.1) with z := zPos }

/-- A concrete instance of the library operations, used to evaluate
`handle` on examples: orientations are exact rational rotations about the
Z axis, given by their cosine and sine; `zAxisQuat deg` is the rotation of
angle `2 * atan (deg / 115)`, within a thousandth of `deg` degrees for the
two angles `handle` uses; the inherited handler leaves the pose alone. -/
def planarOps : OsgOps (ℚ × ℚ) where
  baseHandle := fun _ p => p
  quatMul := fun a b => (a.1 * b.1 - a.2 * b.2, a.1 * b.2 + a.2 * b.1)
  zAxisQuat := fun deg =>
    let t := deg / 115
    ((1 - t * t) / (1 + t * t), 2 * t / (1 + t * t))
  rotateVec := fun q v => ⟨q.1 * v.x - q.2 * v.y, q.2 * v.x + q.1 * v.y, v.z⟩

/-- A grid the generator produces for size 5 and seed (1, 1). -/
def sampleMaze : Maze :=
  [[CellType.WALL, CellType.WALL, CellType.WALL, CellType.WALL, CellType.WALL],
   [CellType.WALL, CellType.START, CellType.PATH, CellType.PATH, CellType.WALL],
   [CellType.WALL, CellType.WALL, CellType.WALL, CellType.PATH, CellType.WALL],
   [CellType.WALL, CellType.PATH, CellType.PATH, CellType.PATH, CellType.WALL],
   [CellType.WALL, CellType.WALL, CellType.WALL, CellType.END, CellType.WALL]]

/-- The test of `checkMove` on a cell: inside the grid and not `WALL`. -/
def cellFree (mazeVec : Maze) (x y : Int) : Bool :=
  if x ≥ 0 ∧ x < (mazeVec.length : Int) ∧ y ≥ 0 ∧ y < ((mazeVec.getD 0 []).length : Int) then
    if cellAt mazeVec x y = some CellType.WALL then false else true
  else
    false

/-- A controller standing on the `END` cell (4, 3) of `sampleMaze`, at rest. -/
def onExitController : CameraController (ℚ × ℚ) :=
  CameraController.new (some ⟨⟨4, 3, 1 / 4⟩, (1, 0)⟩) sampleMaze

/-- The cell `(x, y)` lies inside a grid of side `size`. -/
def inBounds (size x y : Int) : Prop :=
  0 ≤ x ∧ x < size ∧ 0 ≤ y ∧ y < size

instance inBoundsDecidable (size x y : Int) : Decidable (inBounds size x y) := by
  unfold inBounds
  infer_instance

/-- The cell `a` of the grid is not a wall: it is tagged `PATH`, `START`
or `END`. -/
def isOpen (maze : Maze) (a : Int × Int) : Bool :=
  match cellAt maze a.1 a.2 with
  | some t => t != CellType.WALL
  | none => false

/-- Two cells are 4-adjacent: they differ by one step along one axis. -/
def adjacent4 (a b : Int × Int) : Prop :=
  (a.1 - b.1).natAbs + (a.2 - b.2).natAbs = 1

/-- The graph of the non-wall cells of a grid under 4-adjacency. -/
def mazeGraph (maze : Maze) : SimpleGraph (Int × Int) where
  Adj a b := isOpen maze a = true ∧ isOpen maze b = true ∧ adjacent4 a b
  symm := by
    intro a b h
    refine ⟨h.2.1, h.1, ?_⟩
    have := h.2.2
    unfold adjacent4 at this ⊢
    omega
  loopless := by
    intro a h
    have := h.2.2
    unfold adjacent4 at this
    simp at this

/-- The cell `a` has the parity of the seed `(sx, sy)` on both axes: it is
one of the cells the step-2 carving can recurse into. -/
def onLattice (sx sy : Int) (a : Int × Int) : Prop :=
  a.1 % 2 = sx % 2 ∧ a.2 % 2 = sy % 2

/-- The number of `WALL` cells of a grid of side `size`. -/
def wallCount (size : Int) (maze : Maze) : Nat :=
  ((Finset.Icc (0 : Int) (size - 1) ×ˢ Finset.Icc (0 : Int) (size - 1)).filter
    (fun a => cellAt maze a.1 a.2 = some CellType.WALL)).card

/-- The grid `maze'` is obtained from `maze` by carving: every cell is
unchanged or was turned from `WALL` into `PATH`. -/
def Carved (maze maze' : Maze) : Prop :=
  ∀ x y, cellAt maze' x y = cellAt maze x y ∨
    (cellAt maze x y = some CellType.WALL ∧ cellAt maze' x y = some CellType.PATH)

/-- Every cell two steps away from `a` along an axis is open when it is
inside the grid. -/
def Closed (size : Int) (maze : Maze) (a : Int × Int) : Prop :=
  ∀ dx dy : Int, dx.natAbs + dy.natAbs = 1 → inBounds size (a.1 + 2 * dx) (a.2 + 2 * dy) →
    isOpen maze (a.1 + 2 * dx, a.2 + 2 * dy) = true

/-- The invariant of the carving for the seed `(sx, sy)`: the grid is
`size` by `size` and holds only `WALL` and `PATH`; the cells off the seed's
parity on both axes are walls; an open cell off the seed's parity on one
axis has both its neighbours along that axis open; the graph of the open
cells has no cycle and every open cell is reachable from the seed. -/
structure GenInv (size sx sy : Int) (maze : Maze) : Prop where
  dom : ∀ x y, cellAt maze x y ≠ none ↔ inBounds size x y
  tags : ∀ x y t, cellAt maze x y = some t → t = CellType.WALL ∨ t = CellType.PATH
  corner : ∀ a : Int × Int, a.1 % 2 ≠ sx % 2 → a.2 % 2 ≠ sy % 2 → isOpen maze a = false
  hmid : ∀ a : Int × Int, isOpen maze a = true → a.1 % 2 ≠ sx % 2 →
    isOpen maze (a.1 - 1, a.2) = true ∧ isOpen maze (a.1 + 1, a.2) = true
  vmid : ∀ a : Int × Int, isOpen maze a = true → a.2 % 2 ≠ sy % 2 →
    isOpen maze (a.1, a.2 - 1) = true ∧ isOpen maze (a.1, a.2 + 1) = true
  acyc : (mazeGraph maze).IsAcyclic
  reach : ∀ a, isOpen maze a = true → (mazeGraph maze).Reachable (sx, sy) a

/-- The specification of `generateMaze` for a given fuel. Called on a cell
`(x, y)` of the grid and of the seed's lattice, in a grid that satisfies
the invariant once `(x, y)` is opened and whose number of walls is then
below the fuel, the recursion returns; the final grid satisfies the
invariant, is a carving of the initial one, and every lattice cell opened
by the call has all its lattice neighbours open. -/
def GenSpec (size sx sy : Int) (draws : Nat → Nat) (fuel : Nat) : Prop :=
  ∀ (x y : Int) (m : Maze) (k : Nat),
    inBounds size x y → onLattice sx sy (x, y) →
    GenInv size sx sy (setCell m x y CellType.PATH) →
    wallCount size (setCell m x y CellType.PATH) < fuel →
    ∃ m' k', generateMaze size draws fuel x y m k = some (m', k') ∧
      GenInv size sx sy m' ∧ Carved (setCell m x y CellType.PATH) m' ∧
      ∀ a, onLattice sx sy a → isOpen m' a = true → isOpen m a = true ∨ Closed size m' a

/-- The invariant of the exploration loop of the call `generateMaze(x, y)`
started on the grid `m`: the grid satisfies the carving invariant, `(x, y)`
is open, the number of walls is below `bound`, and every open lattice cell
other than `(x, y)` was open in `m` or has all its lattice neighbours open. -/
def LoopInv (size sx sy : Int) (bound : Nat) (x y : Int) (m : Maze) (st : Maze × Nat) : Prop :=
  GenInv size sx sy st.1 ∧ isOpen st.1 (x, y) = true ∧ wallCount size st.1 < bound ∧
    ∀ a, onLattice sx sy a → isOpen st.1 a = true →
      a = (x, y) ∨ isOpen m a = true ∨ Closed size st.1 a

/-! ## Instrumented and simplified variants of the generator -/

/-- What the instrumented generator records, each with the grid at that
moment: `enter x y maze` when `generateMaze(x, y)` is entered, `check x y maze`
when `hasThreeWalls(x, y)` is evaluated. -/
inductive GenEvent
  | enter (x y : Int) (maze : Maze)
  | check (x y : Int) (maze : Maze)

/-- The function `exploreDir` with a log of events (most recent first) added
to the state; `hasThreeWalls` is evaluated, as in the source, only when
`isValidPosition` holds. -/
def exploreDirLogged
    (gen : Int → Int → Maze → Nat → List GenEvent → Option (Maze × Nat × List GenEvent))
    (size x y dx dy : Int) (st : Maze × Nat × List GenEvent) :
    Option (Maze × Nat × List GenEvent) :=
  let newX := x + 2 * dx
  let newY := y + 2 * dy
  if isValidPosition size st.1 newX newY then
    let log := GenEvent.check newX newY st.1 :: st.2.2
    if !hasThreeWalls size st.1 newX newY then
      gen newX newY (setCell st.1 (x + dx) (y + dy) CellType.PATH) st.2.1 log
    else
      some (st.1, st.2.1, log)
  else
    some st

/-- The function `generateMaze` with a log of events (most recent first)
added to the state. -/
def generateMazeLogged (size : Int) (draws : Nat → Nat) :
    Nat → Int → Int → Maze → Nat → List GenEvent → Option (Maze × Nat × List GenEvent)
  | 0, _, _, _, _, _ => none
  | fuel + 1, x, y, maze, k, log =>
    let log := GenEvent.enter x y maze :: log
    let maze := setCell maze x y CellType.PATH
    let dirs := shuffleDirs draws k
    [0, 1, 2, 3].foldlM
      (fun st i => exploreDirLogged (generateMazeLogged size draws fuel) size x y
        (dirs.1.getD i 0) (dirs.2.1.getD i 0) st)
      (maze, dirs.2.2, log)

/-- The cells on which `generateMaze` was entered, from a log. -/
def enteredCells (log : List GenEvent) : List (Int × Int) :=
  log.filterMap (fun e =>
    match e with
    | GenEvent.enter x y _ => some (x, y)
    | GenEvent.check _ _ _ => none)

/-- The function `exploreDir` with the `hasThreeWalls` condition removed. -/
def exploreDirNoCheck (gen : Int → Int → Maze → Nat → Option (Maze × Nat))
    (size x y dx dy : Int) (st : Maze × Nat) : Option (Maze × Nat) :=
  let newX := x + 2 * dx
  let newY := y + 2 * dy
  if isValidPosition size st.1 newX newY then
    gen newX newY (setCell st.1 (x + dx) (y + dy) CellType.PATH) st.2
  else
    some st

/-- The recursive carving of `generateMaze` with the `hasThreeWalls`
condition removed. -/
def generateMazeNoCheck (size : Int) (draws : Nat → Nat) :
    Nat → Int → Int → Maze → Nat → Option (Maze × Nat)
  | 0, _, _, _, _ => none
  | fuel + 1, x, y, maze, k =>
    let maze := setCell maze x y CellType.PATH
    let dirs := shuffleDirs draws k
    [0, 1, 2, 3].foldlM
      (fun st i => exploreDirNoCheck (generateMazeNoCheck size draws fuel) size x y
        (dirs.1.getD i 0) (dirs.2.1.getD i 0) st)
      (maze, dirs.2.2)

/-- The constructor run with the carving that omits the `hasThreeWalls`
condition. -/
def MazeGeneratorNoCheck (size x y : Int) (draws : Nat → Nat) : Option Maze :=
  match generateMazeNoCheck size draws (size.toNat * size.toNat + 1) x y (allWalls size) 0 with
  | none => none
  | some (maze, _) =>
    let maze := setCell maze x y CellType.START
    let maze := setCell maze (size - 1) (size - (y + 1)) CellType.END
    some maze

/-- The invariant of the log of a run, for the current grid `maze`: every
call was entered on a wall cell of the grid; every evaluation of
`hasThreeWalls` was on a cell that passed `isValidPosition`, had no `PATH`
neighbour and returned false; no cell was entered twice; the cells entered
are no longer walls; and the number of calls plus the number of remaining
walls is at most `bound`. -/
def LogInv (size : Int) (bound : Nat) (maze : Maze) (log : List GenEvent) : Prop :=
  (∀ x y g, GenEvent.enter x y g ∈ log → inBounds size x y ∧ cellAt g x y = some CellType.WALL) ∧
  (∀ x y g, GenEvent.check x y g ∈ log →
    isValidPosition size g x y = true ∧
    (∀ b : Int × Int, adjacent4 (x, y) b → cellAt g b.1 b.2 ≠ some CellType.PATH) ∧
    hasThreeWalls size g x y = false) ∧
  (enteredCells log).Nodup ∧
  (∀ c ∈ enteredCells log, cellAt maze c.1 c.2 ≠ some CellType.WALL) ∧
  (enteredCells log).length + wallCount size maze ≤ bound

/-! # Theorems -/

/-! ## Size clamp -/

/-- C10 (divergence): for the argument 50 the clamp of `main` yields 51,
which is odd but exceeds `MAX_MAZE = 50`. -/
theorem mazeSizeOfArg_fifty :
    mazeSizeOfArg 50 = 51 ∧ ¬ mazeSizeOfArg 50 ≤ MAX_MAZE := by
  decide

/-- What the clamp does guarantee: an odd value between 5 and 51. -/
theorem mazeSizeOfArg_range (arg : Int) :
    mazeSizeOfArg arg % 2 = 1 ∧ 5 ≤ mazeSizeOfArg arg ∧ mazeSizeOfArg arg ≤ 51 := by
  unfold mazeSizeOfArg MAX_MAZE
  simp only
  have h5 : 5 ≤ min (max 5 arg) 50 := by simp
  have h50 : min (max 5 arg) 50 ≤ 50 := by simp
  generalize min (max 5 arg) 50 = s at h5 h50
  have ht : Int.tmod s 2 = s % 2 := by
    rw [Int.tmod_eq_emod] <;> omega
  rw [ht]
  split_ifs with h <;> omega

/-! ## Event handling -/

/-- Unfolding of `handle` when the viewer is null. -/
theorem handle_of_no_viewer {Q : Type} (ops : OsgOps Q) (c : CameraController Q) (ea : Event)
    (hread : poseRead ops c ea = none) :
    handle ops c ea = (false, c) := by
  unfold poseRead at hread
  cases hv : c.viewer with
  | some p => simp [hv] at hread
  | none =>
    unfold handle
    simp only [hv, Option.map_none']
    cases c
    simp_all

/-- Unfolding of `handle` in terms of the pose it reads. -/
theorem handle_of_read {Q : Type} (ops : OsgOps Q) (c : CameraController Q) (ea : Event)
    (matrix : Pose Q) (hread : poseRead ops c ea = some matrix) :
    handle ops c ea =
      if ea.eventType = EventType.MOVE ∨ ea.eventType = EventType.DRAG then
        (true, { c with viewer := some matrix })
      else if cellAt c.mazeVec (getMazeIndex matrix.trans.x) (getMazeIndex matrix.trans.y)
          = some CellType.END then
        (true, { c with viewer := some matrix, foundExitFlag := true })
      else
        (true, { c with
          movement := (keySwitch ops ea (c.movement, matrix.rot, matrix)).1
          viewer := some
            (if checkMove c.mazeVec (prospectivePos ops c ea matrix) = true then
              { (keySwitch ops ea (c.movement, matrix.rot, matrix)).2.2 with
                trans := correctDistanceFromWalls c.mazeVec (prospectivePos ops c ea matrix) }
            else (keySwitch ops ea (c.movement, matrix.rot, matrix)).2.2) }) := by
  unfold poseRead at hread
  unfold handle
  simp only [hread]
  by_cases h1 : ea.eventType = EventType.MOVE ∨ ea.eventType = EventType.DRAG
  · simp only [h1, if_true]
  · simp only [h1, if_false]
    unfold checkIfFinsihed
    by_cases h2 : cellAt c.mazeVec (getMazeIndex matrix.trans.x) (getMazeIndex matrix.trans.y)
          = some CellType.END
    · simp only [h2, if_true]
    · simp only [h2, if_false, prospectivePos, Bool.and_true]
      simp

/-- The function `checkMove` only looks at the rounded cell of the position. -/
theorem checkMove_eq_cellFree (mazeVec : Maze) (pos : Vec3) :
    checkMove mazeVec pos = cellFree mazeVec (getMazeIndex pos.x) (getMazeIndex pos.y) := rfl

/-- When the four probes of `correctDistanceFromWalls` are all accepted, the
position is returned as it is. -/
theorem correctDistanceFromWalls_of_probes (mazeVec : Maze) (pos : Vec3)
    (h1 : checkMove mazeVec ⟨pos.x + (distanceFromWall + 1 / 100), pos.y, pos.z⟩ = true)
    (h2 : checkMove mazeVec ⟨pos.x + (distanceFromWall + 1 / 100)
      - 2 * (distanceFromWall + 1 / 100), pos.y, pos.z⟩ = true)
    (h3 : checkMove mazeVec ⟨pos.x + (distanceFromWall + 1 / 100)
      - 2 * (distanceFromWall + 1 / 100), pos.y + (distanceFromWall + 1 / 100), pos.z⟩ = true)
    (h4 : checkMove mazeVec ⟨pos.x + (distanceFromWall + 1 / 100)
      - 2 * (distanceFromWall + 1 / 100), pos.y + (distanceFromWall + 1 / 100)
      - 2 * (distanceFromWall + 1 / 100), pos.z⟩ = true) :
    correctDistanceFromWalls mazeVec pos = pos := by
  simp only [correctDistanceFromWalls, checkAndAdjust, h1, h2, h3, h4, Bool.not_true,
    Bool.false_eq_true, if_false]

/-- The rounded cell of the camera of `onExitController` is the `END` cell. -/
theorem onExitController_cell :
    cellAt onExitController.mazeVec (getMazeIndex (4 : ℚ)) (getMazeIndex (3 : ℚ))
      = some CellType.END := by
  have r1 : getMazeIndex (4 : ℚ) = 4 := by simp only [getMazeIndex, cRound]; norm_num
  have r2 : getMazeIndex (3 : ℚ) = 3 := by simp only [getMazeIndex, cRound]; norm_num
  rw [r1, r2]
  decide

/-- The function `handle` never clears `foundExitFlag`. -/
theorem handle_keeps_flag {Q : Type} (ops : OsgOps Q) (c : CameraController Q) (ea : Event)
    (h : c.foundExitFlag = true) : (handle ops c ea).2.foundExitFlag = true := by
  cases hr : poseRead ops c ea with
  | none => rw [handle_of_no_viewer ops c ea hr]; exact h
  | some matrix =>
    rw [handle_of_read ops c ea matrix hr]
    split_ifs <;> first | exact h | rfl

/-- The function `handleAll` never clears `foundExitFlag`. -/
theorem handleAll_keeps_flag {Q : Type} (ops : OsgOps Q) (eas : List Event) :
    ∀ c : CameraController Q, c.foundExitFlag = true →
      (handleAll ops c eas).foundExitFlag = true := by
  induction eas with
  | nil => intro c h; exact h
  | cons ea rest ih =>
    intro c h
    exact ih _ (handle_keeps_flag ops c ea h)

/-- Splitting a sequence of events. -/
theorem handleAll_append {Q : Type} (ops : OsgOps Q) (c : CameraController Q)
    (eas1 eas2 : List Event) :
    handleAll ops c (eas1 ++ eas2) = handleAll ops (handleAll ops c eas1) eas2 := by
  unfold handleAll
  rw [List.foldl_append]

/-- C7: `foundExitFlag` is false in a freshly constructed controller, and
once `checkExit` has returned true after some events it returns true after
every further event (and after any call of `checkIfFinsihed`). -/
theorem checkExit_monotone {Q : Type} (ops : OsgOps Q) (inputViewer : Option (Pose Q))
    (inputMazeVec : Maze) (c : CameraController Q) (eas1 eas2 : List Event)
    (h : checkExit (handleAll ops c eas1) = true) :
    checkExit (CameraController.new inputViewer inputMazeVec : CameraController Q) = false ∧
    checkExit (handleAll ops c (eas1 ++ eas2)) = true ∧
    ∀ pos, checkExit (checkIfFinsihed (handleAll ops c (eas1 ++ eas2)) pos).2 = true := by
  have h2 : checkExit (handleAll ops c (eas1 ++ eas2)) = true := by
    rw [handleAll_append]
    exact handleAll_keeps_flag ops eas2 _ h
  refine ⟨rfl, h2, ?_⟩
  intro pos
  unfold checkIfFinsihed
  simp only
  split_ifs
  · rfl
  · exact h2

/-- The first event handled on the `END` cell sets the flag. -/
theorem onExitController_first_event :
    checkExit (handleAll planarOps onExitController [⟨EventType.KEYDOWN, keyW⟩]) = true := by
  have h := (handle_of_read planarOps onExitController ⟨EventType.KEYDOWN, keyW⟩
    ⟨⟨4, 3, 1 / 4⟩, (1, 0)⟩ rfl)
  rw [if_neg (by decide), if_pos onExitController_cell] at h
  simp only [handleAll, List.foldl, h, checkExit]

/-- Witness of C7: the flag set on the `END` cell survives a key-up and a
frame event. -/
theorem checkExit_monotone_witness :
    checkExit (CameraController.new (some ⟨⟨4, 3, 1 / 4⟩, (1, 0)⟩) sampleMaze
      : CameraController (ℚ × ℚ)) = false ∧
    checkExit (handleAll planarOps onExitController
      ([⟨EventType.KEYDOWN, keyW⟩] ++ [⟨EventType.KEYUP, keyW⟩, ⟨EventType.FRAME, 0⟩])) = true :=
  have h := checkExit_monotone planarOps (some ⟨⟨4, 3, 1 / 4⟩, (1, 0)⟩) sampleMaze
    onExitController [⟨EventType.KEYDOWN, keyW⟩] [⟨EventType.KEYUP, keyW⟩, ⟨EventType.FRAME, 0⟩]
    onExitController_first_event
  ⟨h.1, h.2.1⟩

/-- C3 (divergence): in `sampleMaze` the accepted position (1.6, 2.55), in
cell (2, 3), is returned unchanged by `correctDistanceFromWalls`, although
the neighbouring cell (2, 2) is a wall and the corrected position lies only
0.05 from the grid line `y = 2.5` it shares with that wall. -/
theorem correctDistanceFromWalls_too_close :
    checkMove sampleMaze ⟨16 / 10, 255 / 100, 1 / 4⟩ = true ∧
    correctDistanceFromWalls sampleMaze ⟨16 / 10, 255 / 100, 1 / 4⟩
      = ⟨16 / 10, 255 / 100, 1 / 4⟩ ∧
    getMazeIndex (16 / 10 : ℚ) = 2 ∧ getMazeIndex (255 / 100 : ℚ) = 3 ∧
    cellAt sampleMaze 2 (3 - 1) = some CellType.WALL ∧
    (255 / 100 : ℚ) - (3 - 1 / 2) < distanceFromWall := by
  have r1 : getMazeIndex (16 / 10 : ℚ) = 2 := by simp only [getMazeIndex, cRound]; norm_num
  have r2 : getMazeIndex (255 / 100 : ℚ) = 3 := by simp only [getMazeIndex, cRound]; norm_num
  refine ⟨?_, ?_, r1, r2, by decide, by norm_num [distanceFromWall]⟩
  · rw [checkMove_eq_cellFree]
    simp only [r1, r2]
    decide
  · apply correctDistanceFromWalls_of_probes <;> rw [checkMove_eq_cellFree] <;>
      simp only [getMazeIndex, cRound, distanceFromWall] <;> norm_num <;> decide

/-- The grid `sampleMaze` is an output of the generator. -/
theorem sampleMaze_generated :
    MazeGenerator 5 1 1 (fun n => n * 7 + 3) = some sampleMaze := by
  decide

/-- Characterisation of `std::round` by the interval of its argument. -/
theorem cRound_eq_iff (v : ℚ) (k : Int) :
    cRound v = k ↔
      (0 ≤ v ∧ (k : ℚ) - 1 / 2 ≤ v ∧ v < k + 1 / 2) ∨
      (v < 0 ∧ (k : ℚ) - 1 / 2 < v ∧ v ≤ k + 1 / 2) := by
  unfold cRound
  by_cases h : 0 ≤ v
  · rw [if_pos h, Int.floor_eq_iff]
    constructor
    · rintro ⟨h1, h2⟩
      exact Or.inl ⟨h, by linarith, by linarith⟩
    · rintro (⟨_, h1, h2⟩ | ⟨h1, _, _⟩)
      · exact ⟨by linarith, by linarith⟩
      · exact absurd h (not_le.2 h1)
  · rw [if_neg h]
    have hv : v < 0 := not_le.1 h
    have e : (-⌊-v + 1 / 2⌋ = k) ↔ ⌊-v + 1 / 2⌋ = -k := by
      constructor <;> intro h' <;> omega
    rw [e, Int.floor_eq_iff]
    push_cast
    constructor
    · rintro ⟨h1, h2⟩
      exact Or.inr ⟨hv, by linarith, by linarith⟩
    · rintro (⟨h1, _, _⟩ | ⟨_, h1, h2⟩)
      · exact absurd h1 h
      · exact ⟨by linarith, by linarith⟩

/-- Bounds of a value in terms of its rounded cell, when the cell index is
not negative. -/
theorem cRound_bounds (v : ℚ) (c : Int) (hc : cRound v = c) (h0 : 0 ≤ c) :
    (c : ℚ) - 1 / 2 ≤ v ∧ v < c + 1 / 2 ∧ (v < 0 → c = 0 ∧ -(1 / 2 : ℚ) < v) := by
  have hq : (0 : ℚ) ≤ c := by exact_mod_cast h0
  rcases (cRound_eq_iff v c).1 hc with ⟨h1, h2, h3⟩ | ⟨h1, h2, h3⟩
  · exact ⟨h2, h3, fun h => absurd h1 (not_le.2 h)⟩
  · have hc0 : c = 0 := by
      have : (c : ℚ) < 1 / 2 := by linarith
      have : (c : ℚ) < 1 := by linarith
      have : c < 1 := by exact_mod_cast this
      omega
    subst hc0
    refine ⟨by linarith, by push_cast; linarith, fun _ => ⟨rfl, ?_⟩⟩
    push_cast at h2
    linarith

/-- The function `stepBackFromWall` just below the upper face of cell `c`: the value is
capped at `c + 0.35`. -/
theorem stepBackFromWall_upper (v : ℚ) (c : Int) (h0 : 0 ≤ c)
    (h1 : (c : ℚ) + 34 / 100 ≤ v) (h2 : v < c + 1 / 2) :
    stepBackFromWall v = min v (c + 35 / 100) := by
  have hq : (0 : ℚ) ≤ c := by exact_mod_cast h0
  have hv : 0 ≤ v := by linarith
  have hf : ⌊v⌋ = c := by
    rw [Int.floor_eq_iff]; exact ⟨by linarith, by linarith⟩
  unfold stepBackFromWall fmodOne distanceFromWall
  simp only [if_pos hv, hf]
  by_cases h3 : (c : ℚ) + 35 / 100 ≤ v
  · rw [min_eq_right h3]
    rw [if_neg (by intro h; linarith [h.1]), if_neg (by intro h; linarith [h.2]),
      if_neg (by intro h; linarith), if_pos ⟨by linarith, by linarith⟩]
    ring
  · rw [min_eq_left (le_of_lt (not_le.1 h3))]
    rw [if_neg (by intro h; linarith [h.1]), if_neg (by intro h; linarith [h.2]),
      if_neg (by intro h; linarith), if_neg (by intro h; linarith [h.2])]

/-- The function `stepBackFromWall` just above the lower face of cell `c ≥ 1`: the value
is raised to at least `c - 0.35`. -/
theorem stepBackFromWall_lower (v : ℚ) (c : Int) (h0 : 1 ≤ c)
    (h1 : (c : ℚ) - 1 / 2 ≤ v) (h2 : v < c - 34 / 100) :
    stepBackFromWall v = max v (c - 35 / 100) := by
  have hq : (1 : ℚ) ≤ c := by exact_mod_cast h0
  have hv : 0 ≤ v := by linarith
  have hf : ⌊v⌋ = c - 1 := by
    rw [Int.floor_eq_iff]; push_cast; exact ⟨by linarith, by linarith⟩
  unfold stepBackFromWall fmodOne distanceFromWall
  simp only [if_pos hv, hf]
  push_cast
  by_cases h3 : v ≤ (c : ℚ) - 35 / 100
  · rw [max_eq_right h3]
    rw [if_pos ⟨by linarith, by linarith⟩]
    ring
  · rw [max_eq_left (le_of_lt (not_le.1 h3))]
    rw [if_neg (by intro h; linarith [h.2]), if_neg (by intro h; linarith [h.2]),
      if_neg (by intro h; linarith), if_neg (by intro h; linarith [h.1])]

/-- The function `stepBackFromWall` leaves the negative values above -1/2 alone. -/
theorem stepBackFromWall_negative (v : ℚ) (h1 : -(1 / 2 : ℚ) < v) (h2 : v < 0) :
    stepBackFromWall v = v := by
  have hv : ¬ 0 ≤ v := not_le.2 h2
  have hc : ⌈v⌉ = 0 := by
    rw [Int.ceil_eq_iff]; push_cast; exact ⟨by linarith, by linarith⟩
  unfold stepBackFromWall fmodOne distanceFromWall
  simp only [if_neg hv, hc]
  push_cast
  rw [if_neg (by intro h; linarith [h.1]), if_neg (by intro h; linarith [h.1]),
    if_neg (by intro h; linarith), if_neg (by intro h; linarith [h.2])]

/-- The function `checkAndAdjust` for a value within 0.16 of the upper face of its cell
`c`: only the positive probe leaves the cell. -/
theorem checkAndAdjust_upper (free : Int → Bool) (w : ℚ) (c : Int) (h0 : 0 ≤ c)
    (h1 : (c : ℚ) + 34 / 100 ≤ w) (h2 : w < c + 1 / 2) (hc : free c = true) :
    checkAndAdjust (fun t => free (cRound t)) (distanceFromWall + 1 / 100) w w =
      (if free (c + 1) = true then w else min w (c + 35 / 100),
        w + (distanceFromWall + 1 / 100) - 2 * (distanceFromWall + 1 / 100)) ∧
    cRound (w + (distanceFromWall + 1 / 100) - 2 * (distanceFromWall + 1 / 100)) = c := by
  have hq : (0 : ℚ) ≤ c := by exact_mod_cast h0
  have p1 : cRound (w + (distanceFromWall + 1 / 100)) = c + 1 := by
    rw [cRound_eq_iff]
    unfold distanceFromWall
    push_cast
    exact Or.inl ⟨by linarith, by linarith, by linarith⟩
  have p2 : cRound (w + (distanceFromWall + 1 / 100) - 2 * (distanceFromWall + 1 / 100)) = c := by
    rw [cRound_eq_iff]
    unfold distanceFromWall
    exact Or.inl ⟨by linarith, by linarith, by linarith⟩
  refine ⟨?_, p2⟩
  unfold checkAndAdjust
  simp only [p1, p2, hc, Bool.not_true, Bool.false_eq_true, if_false]
  cases hf : free (c + 1)
  · simp only [Bool.not_false, if_true, Bool.false_eq_true, if_false,
      stepBackFromWall_upper w c h0 h1 h2]
  · simp only [Bool.not_true, Bool.false_eq_true, if_false, if_true]

/-- The function `checkAndAdjust` for a value within 0.16 of the lower face of its cell
`c ≥ 1`: only the negative probe leaves the cell. -/
theorem checkAndAdjust_lower (free : Int → Bool) (w : ℚ) (c : Int) (h0 : 1 ≤ c)
    (h1 : (c : ℚ) - 1 / 2 ≤ w) (h2 : w < c - 34 / 100) (hc : free c = true) :
    checkAndAdjust (fun t => free (cRound t)) (distanceFromWall + 1 / 100) w w =
      (if free (c - 1) = true then
        (w, w + (distanceFromWall + 1 / 100) - 2 * (distanceFromWall + 1 / 100))
      else (max w (c - 35 / 100), w)) ∧
    cRound (w + (distanceFromWall + 1 / 100) - 2 * (distanceFromWall + 1 / 100)) = c - 1 := by
  have hq : (1 : ℚ) ≤ c := by exact_mod_cast h0
  have p1 : cRound (w + (distanceFromWall + 1 / 100)) = c := by
    rw [cRound_eq_iff]
    unfold distanceFromWall
    exact Or.inl ⟨by linarith, by linarith, by linarith⟩
  have p2 : cRound (w + (distanceFromWall + 1 / 100) - 2 * (distanceFromWall + 1 / 100))
      = c - 1 := by
    rw [cRound_eq_iff]
    unfold distanceFromWall
    push_cast
    exact Or.inl ⟨by linarith, by linarith, by linarith⟩
  refine ⟨?_, p2⟩
  unfold checkAndAdjust
  simp only [p1, p2, hc, Bool.not_true, Bool.false_eq_true, if_false]
  cases hf : free (c - 1)
  · simp only [Bool.not_false, if_true, Bool.false_eq_true, if_false,
      stepBackFromWall_lower w c h0 h1 h2]
    congr 1
    ring
  · simp only [Bool.not_true, Bool.false_eq_true, if_false, if_true]

/-- The function `checkAndAdjust` for a negative value of cell 0 whose negative probe
leaves the grid: nothing is adjusted. -/
theorem checkAndAdjust_negative (free : Int → Bool) (hnn : ∀ i, free i = true → 0 ≤ i) (w : ℚ)
    (h1 : -(1 / 2 : ℚ) < w) (h2 : w ≤ -(34 / 100)) (hc : free 0 = true) :
    checkAndAdjust (fun t => free (cRound t)) (distanceFromWall + 1 / 100) w w = (w, w) := by
  have p1 : cRound (w + (distanceFromWall + 1 / 100)) = 0 := by
    rw [cRound_eq_iff]
    unfold distanceFromWall
    push_cast
    exact Or.inr ⟨by linarith, by linarith, by linarith⟩
  have p2 : cRound (w + (distanceFromWall + 1 / 100) - 2 * (distanceFromWall + 1 / 100))
      = -1 := by
    rw [cRound_eq_iff]
    unfold distanceFromWall
    push_cast
    exact Or.inr ⟨by linarith, by linarith, by linarith⟩
  have hm : free (-1) = false := by
    cases h : free (-1)
    · rfl
    · exact absurd (hnn _ h) (by decide)
  unfold checkAndAdjust
  simp only [p1, p2, hc, hm, Bool.not_true, Bool.false_eq_true, if_false, Bool.not_false,
    if_true, stepBackFromWall_negative w h1 (by linarith)]
  congr 1
  ring

/-- The function `checkAndAdjust` for a value more than 0.16 away from both faces of its
cell: both probes stay in the cell. -/
theorem checkAndAdjust_middle (free : Int → Bool) (w : ℚ) (c : Int) (hw : cRound w = c)
    (h0 : 0 ≤ c) (h1 : w < c + 34 / 100) (h2 : 1 ≤ c → (c : ℚ) - 34 / 100 ≤ w)
    (h3 : c = 0 → -(34 / 100 : ℚ) < w) (hc : free c = true) :
    checkAndAdjust (fun t => free (cRound t)) (distanceFromWall + 1 / 100) w w =
      (w, w + (distanceFromWall + 1 / 100) - 2 * (distanceFromWall + 1 / 100)) ∧
    cRound (w + (distanceFromWall + 1 / 100) - 2 * (distanceFromWall + 1 / 100)) = c := by
  obtain ⟨b1, b2, b3⟩ := cRound_bounds w c hw h0
  have hq : (0 : ℚ) ≤ c := by exact_mod_cast h0
  have hlow : (c : ℚ) - 34 / 100 ≤ w ∧ (c = 0 → -(34 / 100 : ℚ) < w) := by
    refine ⟨?_, h3⟩
    rcases lt_or_le c 1 with h | h
    · have hc0 : c = 0 := by omega
      have := h3 hc0
      subst hc0
      push_cast
      linarith
    · exact h2 h
  have hc1 : ∀ t : ℚ, t < 0 → (c : ℚ) - 1 / 2 < t + 1 / 2 → c = 0 := by
    intro t ht1 ht2
    have : (c : ℚ) < 1 := by linarith
    have : c < 1 := by exact_mod_cast this
    omega
  have p1 : cRound (w + (distanceFromWall + 1 / 100)) = c := by
    rw [cRound_eq_iff]
    unfold distanceFromWall
    by_cases hs : 0 ≤ w + (15 / 100 + 1 / 100)
    · exact Or.inl ⟨hs, by linarith, by linarith⟩
    · have hs' := not_le.1 hs
      have hc0 : c = 0 := hc1 w (by linarith) (by linarith)
      subst hc0
      have := h3 rfl
      push_cast
      exact Or.inr ⟨hs', by linarith, by linarith⟩
  have p2 : cRound (w + (distanceFromWall + 1 / 100) - 2 * (distanceFromWall + 1 / 100))
      = c := by
    rw [cRound_eq_iff]
    unfold distanceFromWall
    by_cases hs : 0 ≤ w + (15 / 100 + 1 / 100) - 2 * (15 / 100 + 1 / 100)
    · exact Or.inl ⟨hs, by linarith [hlow.1], by linarith⟩
    · have hs' := not_le.1 hs
      have hc0 : c = 0 := hc1 (w - 1 / 2) (by linarith) (by linarith)
      subst hc0
      have := h3 rfl
      push_cast
      exact Or.inr ⟨hs', by linarith, by linarith⟩
  refine ⟨?_, p2⟩
  unfold checkAndAdjust
  simp only [p1, p2, hc, Bool.not_true, Bool.false_eq_true, if_false]

/-- One axis of the clearance correction, for a value whose cell passes the
test `free` (which holds of no negative index): the adjusted value rounds to
the same cell, the copy is left in a cell that passes the test, and a second
run from the adjusted value changes nothing and leaves the copy in the same
cell. -/
theorem checkAndAdjust_axis (free : Int → Bool) (hnn : ∀ i, free i = true → 0 ≤ i) (v : ℚ)
    (hv : free (cRound v) = true) :
    cRound (checkAndAdjust (fun t => free (cRound t)) (distanceFromWall + 1 / 100) v v).1
      = cRound v ∧
    free (cRound (checkAndAdjust (fun t => free (cRound t))
      (distanceFromWall + 1 / 100) v v).2) = true ∧
    (checkAndAdjust (fun t => free (cRound t)) (distanceFromWall + 1 / 100)
      (checkAndAdjust (fun t => free (cRound t)) (distanceFromWall + 1 / 100) v v).1
      (checkAndAdjust (fun t => free (cRound t)) (distanceFromWall + 1 / 100) v v).1).1
      = (checkAndAdjust (fun t => free (cRound t)) (distanceFromWall + 1 / 100) v v).1 ∧
    cRound (checkAndAdjust (fun t => free (cRound t)) (distanceFromWall + 1 / 100)
      (checkAndAdjust (fun t => free (cRound t)) (distanceFromWall + 1 / 100) v v).1
      (checkAndAdjust (fun t => free (cRound t)) (distanceFromWall + 1 / 100) v v).1).2
      = cRound (checkAndAdjust (fun t => free (cRound t)) (distanceFromWall + 1 / 100) v v).2 := by
  obtain ⟨c, hc⟩ : ∃ c, cRound v = c := ⟨_, rfl⟩
  rw [hc] at hv ⊢
  have h0 : 0 ≤ c := hnn c hv
  have hq : (0 : ℚ) ≤ c := by exact_mod_cast h0
  obtain ⟨b1, b2, b3⟩ := cRound_bounds v c hc h0
  by_cases hU : (c : ℚ) + 34 / 100 ≤ v
  · obtain ⟨e, p⟩ := checkAndAdjust_upper free v c h0 hU b2 hv
    rw [e]
    cases hf : free (c + 1)
    · simp only [Bool.false_eq_true, if_false]
      have m1 : (c : ℚ) + 34 / 100 ≤ min v (c + 35 / 100) := le_min hU (by linarith)
      have m2 : min v ((c : ℚ) + 35 / 100) < c + 1 / 2 := lt_of_le_of_lt (min_le_left _ _) b2
      obtain ⟨e', p'⟩ := checkAndAdjust_upper free (min v (c + 35 / 100)) c h0 m1 m2 hv
      rw [e', p, p']
      simp only [hf, Bool.false_eq_true, if_false, min_assoc, min_self]
      refine ⟨?_, hv, ?_, ?_⟩
      · rw [cRound_eq_iff]
        exact Or.inl ⟨by linarith, by linarith, m2⟩
      all_goals first | rfl | trivial
    · simp only [if_true]
      rw [e, p]
      simp only [hf, if_true]
      refine ⟨hc, hv, ?_, ?_⟩
      all_goals first | rfl | trivial
  · have hU' : v < (c : ℚ) + 34 / 100 := not_le.1 hU
    by_cases hL : 1 ≤ c ∧ v < (c : ℚ) - 34 / 100
    · obtain ⟨e, p⟩ := checkAndAdjust_lower free v c hL.1 b1 hL.2 hv
      have hq1 : (1 : ℚ) ≤ c := by exact_mod_cast hL.1
      rw [e]
      cases hf : free (c - 1)
      · simp only [Bool.false_eq_true, if_false]
        have m1 : (c : ℚ) - 1 / 2 ≤ max v (c - 35 / 100) := le_trans b1 (le_max_left _ _)
        have m2 : max v ((c : ℚ) - 35 / 100) < c - 34 / 100 := max_lt hL.2 (by linarith)
        obtain ⟨e', _⟩ := checkAndAdjust_lower free (max v (c - 35 / 100)) c hL.1 m1 m2 hv
        rw [e']
        simp only [hf, Bool.false_eq_true, if_false, max_assoc, max_self]
        have hr : cRound (max v ((c : ℚ) - 35 / 100)) = c := by
          rw [cRound_eq_iff]
          exact Or.inl ⟨by linarith, m1, by linarith⟩
        rw [hr, hc]
        refine ⟨?_, hv, ?_, ?_⟩
        all_goals first | rfl | trivial
      · simp only [if_true]
        rw [e, p]
        simp only [hf, if_true]
        refine ⟨hc, ?_, ?_, ?_⟩
        all_goals first | rfl | trivial
    · by_cases hN : c = 0 ∧ v ≤ -(34 / 100 : ℚ)
      · obtain ⟨hc0, hv0⟩ := hN
        subst hc0
        have hneg : -(1 / 2 : ℚ) < v := (b3 (by linarith)).2
        have e := checkAndAdjust_negative free hnn v hneg hv0 hv
        rw [e]
        simp only [e, hc]
        refine ⟨?_, hv, ?_, ?_⟩
        all_goals first | rfl | trivial
      · have h2 : 1 ≤ c → (c : ℚ) - 34 / 100 ≤ v := by
          intro h1
          by_contra hcon
          exact hL ⟨h1, not_le.1 hcon⟩
        have h3 : c = 0 → -(34 / 100 : ℚ) < v := by
          intro h1
          by_contra hcon
          exact hN ⟨h1, not_lt.1 hcon⟩
        obtain ⟨e, p⟩ := checkAndAdjust_middle free v c hc h0 hU' h2 h3 hv
        rw [e]
        simp only [e, p, hc]
        refine ⟨?_, hv, ?_, ?_⟩
        all_goals first | rfl | trivial

/-- The function `cellFree` holds of no cell with a negative index. -/
theorem cellFree_nonneg (mazeVec : Maze) (i j : Int) (h : cellFree mazeVec i j = true) :
    0 ≤ i ∧ 0 ≤ j := by
  unfold cellFree at h
  split_ifs at h with h1
  exact ⟨h1.1, h1.2.2.1⟩

/-- C8: on a position accepted by `checkMove`, applying
`correctDistanceFromWalls` a second time changes nothing (exact arithmetic,
clearance 0.15, probe distance 0.16). -/
theorem correctDistanceFromWalls_idempotent (mazeVec : Maze) (pos : Vec3)
    (h : checkMove mazeVec pos = true) :
    correctDistanceFromWalls mazeVec (correctDistanceFromWalls mazeVec pos)
      = correctDistanceFromWalls mazeVec pos := by
  have hx := checkAndAdjust_axis (fun i => cellFree mazeVec i (cRound pos.y))
    (fun i hi => (cellFree_nonneg mazeVec i _ hi).1) pos.x h
  obtain ⟨x1, x2, x3, x4⟩ := hx
  have hy := checkAndAdjust_axis
    (fun j => cellFree mazeVec (cRound (checkAndAdjust
      (fun t => cellFree mazeVec (cRound t) (cRound pos.y))
      (distanceFromWall + 1 / 100) pos.x pos.x).2) j)
    (fun j hj => (cellFree_nonneg mazeVec _ j hj).2) pos.y x2
  obtain ⟨y1, y2, y3, y4⟩ := hy
  simp only [correctDistanceFromWalls, checkMove_eq_cellFree, getMazeIndex]
  simp only [y1, x4, x3, y3]

/-- The position (0.6, 1) of `sampleMaze`, next to the wall cell (0, 1), is
accepted by `checkMove`. -/
theorem checkMove_sample_near_wall :
    checkMove sampleMaze ⟨6 / 10, 1, 1 / 4⟩ = true := by
  rw [checkMove_eq_cellFree]
  have r1 : getMazeIndex (6 / 10 : ℚ) = 1 := by simp only [getMazeIndex, cRound]; norm_num
  have r2 : getMazeIndex (1 : ℚ) = 1 := by simp only [getMazeIndex, cRound]; norm_num
  simp only [r1, r2]
  decide

/-- Witness of C8: the position (0.6, 1) of `sampleMaze`. -/
theorem correctDistanceFromWalls_idempotent_witness :
    checkMove sampleMaze ⟨6 / 10, 1, 1 / 4⟩ = true ∧
    correctDistanceFromWalls sampleMaze (correctDistanceFromWalls sampleMaze ⟨6 / 10, 1, 1 / 4⟩)
      = correctDistanceFromWalls sampleMaze ⟨6 / 10, 1, 1 / 4⟩ :=
  ⟨checkMove_sample_near_wall,
    correctDistanceFromWalls_idempotent sampleMaze ⟨6 / 10, 1, 1 / 4⟩ checkMove_sample_near_wall⟩

/-! ## Reading and writing cells -/

/-- A read after a write. -/
theorem cellAt_setCell (m : Maze) (x y a b : Int) (v : CellType) :
    cellAt (setCell m x y v) a b =
      if a = x ∧ b = y ∧ (cellAt m x y).isSome then some v else cellAt m a b := by
  unfold setCell
  by_cases h : x < 0 ∨ y < 0
  · have : cellAt m x y = none := by simp [cellAt, h]
    simp [h, this]
  · have hx : 0 ≤ x := by omega
    have hy : 0 ≤ y := by omega
    simp only [h, if_false, List.get?_eq_getElem?]
    cases hr : m[x.toNat]? with
    | none =>
      have : cellAt m x y = none := by simp [cellAt, hr]
      simp [this]
    | some row =>
      have hxy : cellAt m x y = row[y.toNat]? := by simp [cellAt, h, hr]
      simp only [hxy]
      unfold cellAt
      by_cases hab : a < 0 ∨ b < 0
      · simp only [hab, if_true]
        split_ifs with h1
        · omega
        · rfl
      · have ha : 0 ≤ a := by omega
        have hb : 0 ≤ b := by omega
        simp only [hab, if_false, List.get?_eq_getElem?, List.getElem?_set]
        by_cases e1 : x.toNat = a.toNat
        · have e1' : a = x := by omega
          subst e1'
          have hlt : a.toNat < m.length := by
            rcases List.getElem?_eq_some_iff.1 hr with ⟨hl, _⟩; exact hl
          simp only [if_true, hlt, true_and]
          by_cases e2 : y.toNat = b.toNat
          · have e2' : b = y := by omega
            subst e2'
            simp only [List.getElem?_set, if_true, true_and]
            cases hc : row[b.toNat]? with
            | none =>
              simp [hr, hc]
              simpa using hc
            | some c =>
              have : b.toNat < row.length := by
                rcases List.getElem?_eq_some_iff.1 hc with ⟨hl, _⟩; exact hl
              simp [this]
          · have e2' : ¬ b = y := by omega
            simp [e2, e2', hr, List.getElem?_set]
        · have e1' : ¬ a = x := by omega
          simp [e1, e1']

/-- A write does not change which cells exist. -/
theorem cellAt_setCell_ne_none (m : Maze) (x y a b : Int) (v : CellType) :
    cellAt (setCell m x y v) a b ≠ none ↔ cellAt m a b ≠ none := by
  rw [cellAt_setCell]
  split_ifs with h
  · obtain ⟨ha, hb, hs⟩ := h
    subst ha; subst hb
    simp only [ne_eq, reduceCtorEq, not_false_eq_true, true_iff]
    intro hn
    rw [hn] at hs
    simp at hs
  · exact Iff.rfl

/-- The open cells after writing a tag other than `WALL`. -/
theorem isOpen_setCell (m : Maze) (x y : Int) (v : CellType) (hv : v ≠ CellType.WALL)
    (a : Int × Int) :
    isOpen (setCell m x y v) a = true ↔
      isOpen m a = true ∨ (a = (x, y) ∧ cellAt m x y ≠ none) := by
  unfold isOpen
  rw [cellAt_setCell]
  by_cases h : a.1 = x ∧ a.2 = y ∧ (cellAt m x y).isSome = true
  · rw [if_pos h]
    obtain ⟨h1, h2, h3⟩ := h
    have ha : a = (x, y) := Prod.ext h1 h2
    have hn : cellAt m x y ≠ none := by
      intro hn; rw [hn] at h3; simp at h3
    simp [hv, ha, hn]
  · rw [if_neg h]
    constructor
    · intro h'; exact Or.inl h'
    · rintro (h' | ⟨ha, hn⟩)
      · exact h'
      · exfalso
        apply h
        subst ha
        refine ⟨rfl, rfl, ?_⟩
        cases hc : cellAt m x y with
        | none => exact absurd hc hn
        | some t => rfl

/-- An open cell exists. -/
theorem cellAt_ne_none_of_isOpen (m : Maze) (a : Int × Int) (h : isOpen m a = true) :
    cellAt m a.1 a.2 ≠ none := by
  unfold isOpen at h
  intro hn
  rw [hn] at h
  simp at h

/-- The graph of a grid only depends on which cells are open. -/
theorem mazeGraph_congr (m m' : Maze) (h : ∀ a, isOpen m' a = isOpen m a) :
    mazeGraph m' = mazeGraph m := by
  ext a b
  simp only [mazeGraph, h]

/-- Opening cells only adds edges. -/
theorem mazeGraph_mono (m m' : Maze) (h : ∀ a, isOpen m a = true → isOpen m' a = true) :
    mazeGraph m ≤ mazeGraph m' := by
  intro a b hab
  exact ⟨h a hab.1, h b hab.2.1, hab.2.2⟩

/-! ## Carving -/

/-- Carving is reflexive. -/
theorem Carved.refl (m : Maze) : Carved m m := fun _ _ => Or.inl rfl

/-- Carving is transitive. -/
theorem Carved.trans {m1 m2 m3 : Maze} (h12 : Carved m1 m2) (h23 : Carved m2 m3) :
    Carved m1 m3 := by
  intro x y
  rcases h12 x y with h | ⟨h, h'⟩ <;> rcases h23 x y with g | ⟨g, g'⟩
  · left; rw [g, h]
  · right; exact ⟨h ▸ g, g'⟩
  · right; exact ⟨h, g ▸ h'⟩
  · rw [h'] at g; cases g

/-- Writing `PATH` into a grid that holds only `WALL` and `PATH` is a carving. -/
theorem Carved.setCell (m : Maze) (x y : Int)
    (htags : ∀ t, cellAt m x y = some t → t = CellType.WALL ∨ t = CellType.PATH) :
    Carved m (setCell m x y CellType.PATH) := by
  intro a b
  rw [cellAt_setCell]
  split_ifs with h
  · obtain ⟨ha, hb, hs⟩ := h
    subst ha; subst hb
    cases hc : cellAt m a b with
    | none => rw [hc] at hs; simp at hs
    | some t =>
      rcases htags t hc with ht | ht
      · right; exact ⟨by rw [ht], rfl⟩
      · left; rw [ht]
  · left; rfl

/-- Carving keeps the open cells open. -/
theorem Carved.isOpen {m m' : Maze} (h : Carved m m') (a : Int × Int)
    (ha : isOpen m a = true) : isOpen m' a = true := by
  unfold MazeRunner.isOpen at ha ⊢
  rcases h a.1 a.2 with h' | ⟨h1, h2⟩
  · rw [h']; exact ha
  · rw [h1] at ha; simp at ha

/-- Carving does not change which cells exist. -/
theorem Carved.ne_none {m m' : Maze} (h : Carved m m') (x y : Int) :
    cellAt m' x y ≠ none ↔ cellAt m x y ≠ none := by
  rcases h x y with h' | ⟨h1, h2⟩
  · rw [h']
  · rw [h1, h2]; simp

/-- Carving keeps the tags within `WALL` and `PATH`. -/
theorem Carved.tags {m m' : Maze} (h : Carved m m')
    (ht : ∀ x y t, cellAt m x y = some t → t = CellType.WALL ∨ t = CellType.PATH) :
    ∀ x y t, cellAt m' x y = some t → t = CellType.WALL ∨ t = CellType.PATH := by
  intro x y t hc
  rcases h x y with h' | ⟨h1, h2⟩
  · rw [h'] at hc; exact ht x y t hc
  · rw [h2] at hc
    right
    exact (Option.some.inj hc).symm

/-- Carving does not increase the number of walls. -/
theorem Carved.wallCount_le {m m' : Maze} (h : Carved m m') (size : Int) :
    wallCount size m' ≤ wallCount size m := by
  unfold wallCount
  apply Finset.card_le_card
  intro a ha
  rw [Finset.mem_filter] at ha ⊢
  refine ⟨ha.1, ?_⟩
  rcases h a.1 a.2 with h' | ⟨h1, h2⟩
  · rw [← h']; exact ha.2
  · rw [h2] at ha; cases ha.2

/-- Carving a wall cell of the grid strictly decreases the number of walls. -/
theorem wallCount_setCell_lt (size : Int) (m : Maze) (x y : Int) (hb : inBounds size x y)
    (hw : cellAt m x y = some CellType.WALL) :
    wallCount size (setCell m x y CellType.PATH) < wallCount size m := by
  unfold wallCount
  apply Finset.card_lt_card
  rw [Finset.ssubset_iff_of_subset]
  · refine ⟨(x, y), ?_, ?_⟩
    · rw [Finset.mem_filter, Finset.mem_product, Finset.mem_Icc, Finset.mem_Icc]
      unfold inBounds at hb
      exact ⟨⟨⟨hb.1, by omega⟩, ⟨hb.2.2.1, by omega⟩⟩, hw⟩
    · rw [Finset.mem_filter]
      rintro ⟨_, h⟩
      rw [cellAt_setCell] at h
      simp [hw] at h
  · intro a ha
    rw [Finset.mem_filter] at ha ⊢
    refine ⟨ha.1, ?_⟩
    have h := ha.2
    rw [cellAt_setCell] at h
    split_ifs at h with hc
    · cases h
    · exact h

/-! ## The graph of open cells -/

/-- Adding a vertex with at most one neighbour to an acyclic graph keeps it
acyclic. -/
theorem isAcyclic_of_leaf {V : Type} [DecidableEq V] (G G' : SimpleGraph V) (v : V)
    (h1 : ∀ a b, G'.Adj a b → a ≠ v → b ≠ v → G.Adj a b)
    (h2 : ∀ a b, G'.Adj v a → G'.Adj v b → a = b)
    (hG : G.IsAcyclic) : G'.IsAcyclic := by
  intro w c hc
  by_cases hv : v ∈ c.support
  · have hc' := hc.rotate hv
    generalize c.rotate hv = c' at hc'
    cases c' with
    | nil => exact hc'.ne_nil rfl
    | @cons _ u _ h p =>
      rw [SimpleGraph.Walk.cons_isCycle_iff] at hc'
      obtain ⟨hp, he⟩ := hc'
      have hne : v ≠ u := G'.ne_of_adj h
      obtain ⟨x, hx, q, hq⟩ := SimpleGraph.Walk.exists_eq_cons_of_ne hne p.reverse
      have hxu : x = u := h2 x u hx h
      subst hxu
      apply he
      have hmem : s(v, x) ∈ p.reverse.edges := by
        rw [hq]; simp
      rw [SimpleGraph.Walk.edges_reverse] at hmem
      exact List.mem_reverse.1 hmem
  · have hedges : ∀ e ∈ c.edges, e ∈ G.edgeSet := by
      intro e he
      induction e using Sym2.ind with
      | _ a b =>
        have ha := c.fst_mem_support_of_mem_edges he
        have hb := c.snd_mem_support_of_mem_edges he
        have hab := c.adj_of_mem_edges he
        rw [SimpleGraph.mem_edgeSet]
        exact h1 a b hab (fun h => hv (h ▸ ha)) (fun h => hv (h ▸ hb))
    exact hG _ (hc.transfer hedges)

/-- Opening a cell that has at most one open neighbour keeps the graph of
open cells acyclic. -/
theorem mazeGraph_acyclic_setCell (m : Maze) (v : Int × Int) (tag : CellType)
    (htag : tag ≠ CellType.WALL) (hac : (mazeGraph m).IsAcyclic)
    (hone : ∀ a b, adjacent4 v a → adjacent4 v b → isOpen m a = true → isOpen m b = true →
      a = b) :
    (mazeGraph (setCell m v.1 v.2 tag)).IsAcyclic := by
  have hopen : ∀ a, a ≠ v → isOpen (setCell m v.1 v.2 tag) a = true → isOpen m a = true := by
    intro a hne ha
    rcases (isOpen_setCell m v.1 v.2 tag htag a).1 ha with h | ⟨h, _⟩
    · exact h
    · exact absurd h hne
  apply isAcyclic_of_leaf (mazeGraph m) _ v _ _ hac
  · intro a b hab ha hb
    exact ⟨hopen a ha hab.1, hopen b hb hab.2.1, hab.2.2⟩
  · intro a b ha hb
    have hav : a ≠ v := fun h => (mazeGraph _).ne_of_adj ha h.symm
    have hbv : b ≠ v := fun h => (mazeGraph _).ne_of_adj hb h.symm
    exact hone a b ha.2.2 hb.2.2 (hopen a hav ha.2.1) (hopen b hbv hb.2.1)

/-- Opening a cell that is open already or has an open neighbour keeps
every open cell reachable from `s`. -/
theorem mazeGraph_reach_setCell (m : Maze) (v s : Int × Int) (tag : CellType)
    (htag : tag ≠ CellType.WALL)
    (hreach : ∀ a, isOpen m a = true → (mazeGraph m).Reachable s a)
    (hnb : isOpen m v = true ∨ ∃ u, adjacent4 u v ∧ isOpen m u = true) :
    ∀ a, isOpen (setCell m v.1 v.2 tag) a = true →
      (mazeGraph (setCell m v.1 v.2 tag)).Reachable s a := by
  have hmono : mazeGraph m ≤ mazeGraph (setCell m v.1 v.2 tag) :=
    mazeGraph_mono _ _ (fun a ha => (isOpen_setCell m v.1 v.2 tag htag a).2 (Or.inl ha))
  intro a ha
  rcases (isOpen_setCell m v.1 v.2 tag htag a).1 ha with h | ⟨h, _⟩
  · exact (hreach a h).mono hmono
  · have hav : a = v := h
    subst hav
    rcases hnb with h' | ⟨u, hadj, hu⟩
    · exact (hreach a h').mono hmono
    · have hu' : isOpen (setCell m a.1 a.2 tag) u = true :=
        (isOpen_setCell m a.1 a.2 tag htag u).2 (Or.inl hu)
      have hadj' : (mazeGraph (setCell m a.1 a.2 tag)).Adj u a := ⟨hu', ha, hadj⟩
      exact ((hreach u hu).mono hmono).trans hadj'.reachable

/-! ## The invariant of the carving -/

/-- A wall cell is not open. -/
theorem isOpen_of_wall (m : Maze) (a : Int × Int) (h : cellAt m a.1 a.2 = some CellType.WALL) :
    isOpen m a = false := by
  unfold isOpen
  rw [h]
  rfl

/-- The four neighbours of a cell. -/
theorem adjacent4_iff (v a : Int × Int) :
    adjacent4 v a ↔
      (a.1 = v.1 + 1 ∧ a.2 = v.2) ∨ (a.1 = v.1 - 1 ∧ a.2 = v.2) ∨
      (a.1 = v.1 ∧ a.2 = v.2 + 1) ∨ (a.1 = v.1 ∧ a.2 = v.2 - 1) := by
  unfold adjacent4
  omega

/-- The four unit directions. -/
theorem unit_dir_cases (dx dy : Int) (hd : dx.natAbs + dy.natAbs = 1) :
    (dx = 1 ∧ dy = 0) ∨ (dx = -1 ∧ dy = 0) ∨ (dx = 0 ∧ dy = 1) ∨ (dx = 0 ∧ dy = -1) := by
  omega

/-- In a grid that satisfies the invariant, the only open neighbour of
the cell between an open lattice cell `(x, y)` and a wall cell two steps
away is `(x, y)`. -/
theorem GenInv.mid_neighbour {size sx sy : Int} {m : Maze} (inv : GenInv size sx sy m)
    (x y dx dy : Int) (hd : dx.natAbs + dy.natAbs = 1) (hlat : onLattice sx sy (x, y))
    (htc : isOpen m (x + 2 * dx, y + 2 * dy) = false) (a : Int × Int)
    (hadj : adjacent4 (x + dx, y + dy) a) (ha : isOpen m a = true) : a = (x, y) := by
  have hlx : x % 2 = sx % 2 := hlat.1
  have hly : y % 2 = sy % 2 := hlat.2
  rw [adjacent4_iff] at hadj
  simp only at hadj
  by_contra hne
  have hne' : ¬ (a.1 = x ∧ a.2 = y) := fun h => hne (Prod.ext h.1 h.2)
  have hnt : ¬ (a.1 = x + 2 * dx ∧ a.2 = y + 2 * dy) := by
    intro h
    have : a = (x + 2 * dx, y + 2 * dy) := Prod.ext h.1 h.2
    rw [this, htc] at ha
    cases ha
  have hc1 : a.1 % 2 ≠ sx % 2 := by
    rcases unit_dir_cases dx dy hd with ⟨e1, e2⟩ | ⟨e1, e2⟩ | ⟨e1, e2⟩ | ⟨e1, e2⟩ <;>
      subst e1 <;> subst e2 <;> omega
  have hc2 : a.2 % 2 ≠ sy % 2 := by
    rcases unit_dir_cases dx dy hd with ⟨e1, e2⟩ | ⟨e1, e2⟩ | ⟨e1, e2⟩ | ⟨e1, e2⟩ <;>
      subst e1 <;> subst e2 <;> omega
  rw [inv.corner a hc1 hc2] at ha
  cases ha

/-- In a grid that satisfies the invariant, a wall cell of the lattice has
no open neighbour. -/
theorem GenInv.wall_neighbour {size sx sy : Int} {m : Maze} (inv : GenInv size sx sy m)
    (t : Int × Int) (hlat : onLattice sx sy t) (htc : isOpen m t = false) (a : Int × Int)
    (hadj : adjacent4 t a) : isOpen m a = false := by
  have hlx : t.1 % 2 = sx % 2 := hlat.1
  have hly : t.2 % 2 = sy % 2 := hlat.2
  rw [adjacent4_iff] at hadj
  cases ha : isOpen m a
  · rfl
  · exfalso
    have hcl : ∀ b : Int × Int, b = t → isOpen m b = true → False := by
      intro b hb ho
      rw [hb, htc] at ho
      cases ho
    rcases hadj with ⟨e1, e2⟩ | ⟨e1, e2⟩ | ⟨e1, e2⟩ | ⟨e1, e2⟩
    · exact hcl (a.1 - 1, a.2) (Prod.ext (by simp only; omega) e2)
        (inv.hmid a ha (by omega)).1
    · exact hcl (a.1 + 1, a.2) (Prod.ext (by simp only; omega) e2)
        (inv.hmid a ha (by omega)).2
    · exact hcl (a.1, a.2 - 1) (Prod.ext e1 (by simp only; omega))
        (inv.vmid a ha (by omega)).1
    · exact hcl (a.1, a.2 + 1) (Prod.ext e1 (by simp only; omega))
        (inv.vmid a ha (by omega)).2

/-- One carving step keeps the invariant: from an open cell `(x, y)` on the
seed's lattice, opening the cell next to it in direction `(dx, dy)` and the
wall cell two steps away. -/
theorem GenInv.carve {size sx sy : Int} {m : Maze} (inv : GenInv size sx sy m)
    (x y dx dy : Int) (hd : dx.natAbs + dy.natAbs = 1) (hlat : onLattice sx sy (x, y))
    (hcur : isOpen m (x, y) = true) (hb : inBounds size (x + 2 * dx) (y + 2 * dy))
    (hw : cellAt m (x + 2 * dx) (y + 2 * dy) = some CellType.WALL) :
    GenInv size sx sy
      (setCell (setCell m (x + dx) (y + dy) CellType.PATH) (x + 2 * dx) (y + 2 * dy)
        CellType.PATH) := by
  have hP : CellType.PATH ≠ CellType.WALL := by decide
  have hlx : x % 2 = sx % 2 := hlat.1
  have hly : y % 2 = sy % 2 := hlat.2
  have hdir := unit_dir_cases dx dy hd
  have htl : onLattice sx sy (x + 2 * dx, y + 2 * dy) := by
    unfold onLattice; simp only; omega
  have hcb : inBounds size x y := (inv.dom x y).1 (cellAt_ne_none_of_isOpen m (x, y) hcur)
  have hmb : inBounds size (x + dx) (y + dy) := by
    unfold inBounds at *
    omega
  have hmex : cellAt m (x + dx) (y + dy) ≠ none := (inv.dom _ _).2 hmb
  have htc : isOpen m (x + 2 * dx, y + 2 * dy) = false := isOpen_of_wall m _ hw
  have hA : ∀ a, isOpen (setCell m (x + dx) (y + dy) CellType.PATH) a = true ↔
      isOpen m a = true ∨ a = (x + dx, y + dy) := by
    intro a
    rw [isOpen_setCell m _ _ _ hP]
    simp only [hmex, ne_eq, not_false_eq_true, and_true]
  have htex : cellAt (setCell m (x + dx) (y + dy) CellType.PATH) (x + 2 * dx) (y + 2 * dy)
      ≠ none := by
    rw [cellAt_setCell_ne_none, hw]
    simp
  have hB : ∀ a, isOpen (setCell (setCell m (x + dx) (y + dy) CellType.PATH) (x + 2 * dx)
      (y + 2 * dy) CellType.PATH) a = true ↔
      isOpen m a = true ∨ a = (x + dx, y + dy) ∨ a = (x + 2 * dx, y + 2 * dy) := by
    intro a
    rw [isOpen_setCell _ _ _ _ hP, hA]
    simp only [htex, ne_eq, not_false_eq_true, and_true, or_assoc]
  have hends : ∀ p : Int × Int, (p = (x, y) ∨ p = (x + 2 * dx, y + 2 * dy)) →
      isOpen (setCell (setCell m (x + dx) (y + dy) CellType.PATH) (x + 2 * dx)
        (y + 2 * dy) CellType.PATH) p = true := by
    rintro p (hp | hp)
    · rw [hp]; exact (hB _).2 (Or.inl hcur)
    · exact (hB _).2 (Or.inr (Or.inr hp))
  -- the only open neighbour of the target cell is the intermediate cell
  have honeB : ∀ a, adjacent4 (x + 2 * dx, y + 2 * dy) a →
      isOpen (setCell m (x + dx) (y + dy) CellType.PATH) a = true → a = (x + dx, y + dy) := by
    intro a hadj ha
    rcases (hA a).1 ha with h | h
    · rw [inv.wall_neighbour _ htl htc a hadj] at h
      cases h
    · exact h
  refine ⟨?_, ?_, ?_, ?_, ?_, ?_, ?_⟩
  · intro x' y'
    rw [cellAt_setCell_ne_none, cellAt_setCell_ne_none]
    exact inv.dom x' y'
  · intro x' y' t h
    rw [cellAt_setCell] at h
    split_ifs at h
    · right; exact (Option.some.inj h).symm
    · rw [cellAt_setCell] at h
      split_ifs at h
      · right; exact (Option.some.inj h).symm
      · exact inv.tags x' y' t h
  · intro a h1 h2
    cases ho : isOpen (setCell (setCell m (x + dx) (y + dy) CellType.PATH) (x + 2 * dx)
      (y + 2 * dy) CellType.PATH) a
    · rfl
    · exfalso
      rcases (hB a).1 ho with h | h | h
      · rw [inv.corner a h1 h2] at h; cases h
      · rw [h] at h1 h2; simp only at h1 h2
        rcases hdir with ⟨e1, e2⟩ | ⟨e1, e2⟩ | ⟨e1, e2⟩ | ⟨e1, e2⟩ <;>
          subst e1 <;> subst e2 <;> omega
      · exact h1 (h ▸ htl.1)
  · intro a ha h1
    rcases (hB a).1 ha with h | h | h
    · obtain ⟨e1, e2⟩ := inv.hmid a h h1
      exact ⟨(hB _).2 (Or.inl e1), (hB _).2 (Or.inl e2)⟩
    · rw [h] at h1 ⊢
      simp only at h1 ⊢
      rcases hdir with ⟨e1, e2⟩ | ⟨e1, e2⟩ | ⟨e1, e2⟩ | ⟨e1, e2⟩ <;> subst e1 <;> subst e2
      · exact ⟨hends _ (Or.inl (Prod.ext (by simp) (by simp))),
          hends _ (Or.inr (Prod.ext (by simp only; ring) (by simp)))⟩
      · exact ⟨hends _ (Or.inr (Prod.ext (by simp only; ring) (by simp))),
          hends _ (Or.inl (Prod.ext (by simp) (by simp)))⟩
      · exact absurd hlx (by simpa using h1)
      · exact absurd hlx (by simpa using h1)
    · exact absurd (h ▸ htl.1) h1
  · intro a ha h1
    rcases (hB a).1 ha with h | h | h
    · obtain ⟨e1, e2⟩ := inv.vmid a h h1
      exact ⟨(hB _).2 (Or.inl e1), (hB _).2 (Or.inl e2)⟩
    · rw [h] at h1 ⊢
      simp only at h1 ⊢
      rcases hdir with ⟨e1, e2⟩ | ⟨e1, e2⟩ | ⟨e1, e2⟩ | ⟨e1, e2⟩ <;> subst e1 <;> subst e2
      · exact absurd hly (by simpa using h1)
      · exact absurd hly (by simpa using h1)
      · exact ⟨hends _ (Or.inl (Prod.ext (by simp) (by simp))),
          hends _ (Or.inr (Prod.ext (by simp) (by simp only; ring)))⟩
      · exact ⟨hends _ (Or.inr (Prod.ext (by simp) (by simp only; ring))),
          hends _ (Or.inl (Prod.ext (by simp) (by simp)))⟩
    · exact absurd (h ▸ htl.2) h1
  · exact mazeGraph_acyclic_setCell _ (x + 2 * dx, y + 2 * dy) CellType.PATH hP
      (mazeGraph_acyclic_setCell m (x + dx, y + dy) CellType.PATH hP inv.acyc
        (fun a b ha hb oa ob => (inv.mid_neighbour x y dx dy hd hlat htc a ha oa).trans
          (inv.mid_neighbour x y dx dy hd hlat htc b hb ob).symm))
      (fun a b ha hb oa ob => (honeB a ha oa).trans (honeB b hb ob).symm)
  · refine mazeGraph_reach_setCell _ (x + 2 * dx, y + 2 * dy) (sx, sy) CellType.PATH hP
      (mazeGraph_reach_setCell m (x + dx, y + dy) (sx, sy) CellType.PATH hP inv.reach
        (Or.inr ⟨(x, y), ?_, hcur⟩))
      (Or.inr ⟨(x + dx, y + dy), ?_, (hA _).2 (Or.inr rfl)⟩)
    · unfold adjacent4; simp only; omega
    · unfold adjacent4; simp only; omega

set_option synthInstance.maxSize 4000 in
set_option synthInstance.maxHeartbeats 400000 in
set_option maxRecDepth 100000 in
/-- The shuffle only permutes the four unit directions: whatever the four
draws, every slot holds a unit direction and every unit direction is in
some slot. -/
theorem shuffle_core : ∀ r0 < 4, ∀ r1 < 4, ∀ r2 < 4, ∀ r3 < 4,
    (∀ i ∈ [0, 1, 2, 3],
      ((swapAt (swapAt (swapAt (swapAt [0, 0, 1, -1] 0 r0) 1 r1) 2 r2) 3 r3).getD i 0).natAbs +
      ((swapAt (swapAt (swapAt (swapAt [1, -1, 0, 0] 0 r0) 1 r1) 2 r2) 3 r3).getD i 0).natAbs
        = 1) ∧
    (∀ d ∈ [((0 : Int), (1 : Int)), (0, -1), (1, 0), (-1, 0)], ∃ i ∈ [0, 1, 2, 3],
      (swapAt (swapAt (swapAt (swapAt [0, 0, 1, -1] 0 r0) 1 r1) 2 r2) 3 r3).getD i 0 = d.1 ∧
      (swapAt (swapAt (swapAt (swapAt [1, -1, 0, 0] 0 r0) 1 r1) 2 r2) 3 r3).getD i 0 = d.2) := by
  decide

/-- The directions produced by `shuffleDirs`: four draws are consumed,
every slot holds a unit direction and every unit direction is in some
slot. -/
theorem shuffleDirs_spec (draws : Nat → Nat) (k : Nat) :
    (shuffleDirs draws k).2.2 = k + 4 ∧
    (∀ i ∈ [0, 1, 2, 3],
      (((shuffleDirs draws k).1.getD i 0).natAbs +
        ((shuffleDirs draws k).2.1.getD i 0).natAbs = 1)) ∧
    (∀ dx dy : Int, dx.natAbs + dy.natAbs = 1 → ∃ i ∈ [0, 1, 2, 3],
      (shuffleDirs draws k).1.getD i 0 = dx ∧ (shuffleDirs draws k).2.1.getD i 0 = dy) := by
  have h := shuffle_core (draws k % 4) (Nat.mod_lt _ (by decide))
    (draws (k + 1) % 4) (Nat.mod_lt _ (by decide))
    (draws (k + 1 + 1) % 4) (Nat.mod_lt _ (by decide))
    (draws (k + 1 + 1 + 1) % 4) (Nat.mod_lt _ (by decide))
  have e : shuffleDirs draws k =
      (swapAt (swapAt (swapAt (swapAt [0, 0, 1, -1] 0 (draws k % 4)) 1 (draws (k + 1) % 4)) 2
          (draws (k + 1 + 1) % 4)) 3 (draws (k + 1 + 1 + 1) % 4),
        swapAt (swapAt (swapAt (swapAt [1, -1, 0, 0] 0 (draws k % 4)) 1 (draws (k + 1) % 4)) 2
          (draws (k + 1 + 1) % 4)) 3 (draws (k + 1 + 1 + 1) % 4),
        k + 1 + 1 + 1 + 1) := rfl
  rw [e]
  refine ⟨rfl, h.1, ?_⟩
  intro dx dy hd
  have hmem : (dx, dy) ∈ [((0 : Int), (1 : Int)), (0, -1), (1, 0), (-1, 0)] := by
    have : (dx = 0 ∧ dy = 1) ∨ (dx = 0 ∧ dy = -1) ∨ (dx = 1 ∧ dy = 0) ∨ (dx = -1 ∧ dy = 0) := by
      omega
    rcases this with ⟨a, b⟩ | ⟨a, b⟩ | ⟨a, b⟩ | ⟨a, b⟩ <;> subst a <;> subst b <;> simp
  exact h.2 (dx, dy) hmem

/-- The function `isValidPosition` holds of the wall cells of the grid. -/
theorem isValidPosition_iff (size : Int) (m : Maze) (x y : Int) :
    isValidPosition size m x y = true ↔
      inBounds size x y ∧ cellAt m x y = some CellType.WALL := by
  unfold isValidPosition inBounds
  simp only [Bool.and_eq_true, decide_eq_true_eq, ge_iff_le, and_assoc]

/-- On a wall cell of the seed's lattice `hasThreeWalls` finds no `PATH`
neighbour and returns false. -/
theorem hasThreeWalls_eq_false {size sx sy : Int} {m : Maze} (inv : GenInv size sx sy m)
    (x y : Int) (hlat : onLattice sx sy (x, y)) (hw : cellAt m x y = some CellType.WALL) :
    hasThreeWalls size m x y = false := by
  have hc : isOpen m (x, y) = false := isOpen_of_wall m (x, y) hw
  have hlx : x % 2 = sx % 2 := hlat.1
  have hly : y % 2 = sy % 2 := hlat.2
  have hop : ∀ a b : Int, cellAt m a b = some CellType.PATH → isOpen m (a, b) = true := by
    intro a b h
    unfold isOpen
    simp only [h]
    rfl
  have n1 : ¬ (x > 0 ∧ cellAt m (x - 1) y = some CellType.PATH) := by
    rintro ⟨_, h⟩
    have := (inv.hmid (x - 1, y) (hop _ _ h) (by simp only; omega)).2
    simp only [sub_add_cancel] at this
    rw [hc] at this; cases this
  have n2 : ¬ (x < size - 1 ∧ cellAt m (x + 1) y = some CellType.PATH) := by
    rintro ⟨_, h⟩
    have := (inv.hmid (x + 1, y) (hop _ _ h) (by simp only; omega)).1
    simp only [add_sub_cancel_right] at this
    rw [hc] at this; cases this
  have n3 : ¬ (y > 0 ∧ cellAt m x (y - 1) = some CellType.PATH) := by
    rintro ⟨_, h⟩
    have := (inv.vmid (x, y - 1) (hop _ _ h) (by simp only; omega)).2
    simp only [sub_add_cancel] at this
    rw [hc] at this; cases this
  have n4 : ¬ (y < size - 1 ∧ cellAt m x (y + 1) = some CellType.PATH) := by
    rintro ⟨_, h⟩
    have := (inv.vmid (x, y + 1) (hop _ _ h) (by simp only; omega)).1
    simp only [add_sub_cancel_right] at this
    rw [hc] at this; cases this
  unfold hasThreeWalls
  simp only [if_neg n1, if_neg n2, if_neg n3, if_neg n4]
  decide

/-- Closedness survives carving. -/
theorem Closed.carved {size : Int} {m m' : Maze} {a : Int × Int} (h : Closed size m a)
    (hc : Carved m m') : Closed size m' a :=
  fun dx dy hd hb => hc.isOpen _ (h dx dy hd hb)

/-- A loop in the `Option` monad: an invariant `I`, a transitive relation `R`
between successive states and a property `Post i` established by the
iteration for `i` and stable under `R`. -/
theorem foldlM_option_inv {σ ι : Type} (f : σ → ι → Option σ) (I : σ → Prop)
    (R : σ → σ → Prop) (Post : ι → σ → Prop) (hrefl : ∀ s, R s s)
    (htrans : ∀ a b c, R a b → R b c → R a c)
    (hstable : ∀ i s s', Post i s → R s s' → Post i s') :
    ∀ (l : List ι), (∀ s i, i ∈ l → I s → ∃ s', f s i = some s' ∧ I s' ∧ R s s' ∧ Post i s') →
      ∀ s, I s → ∃ s', l.foldlM f s = some s' ∧ I s' ∧ R s s' ∧ ∀ i ∈ l, Post i s' := by
  intro l
  induction l with
  | nil =>
    intro _ s hs
    exact ⟨s, rfl, hs, hrefl s, fun i hi => absurd hi (List.not_mem_nil i)⟩
  | cons j l ih =>
    intro hstep s hs
    obtain ⟨s1, e1, i1, r1, p1⟩ := hstep s j (List.mem_cons_self j l) hs
    obtain ⟨s2, e2, i2, r2, p2⟩ :=
      ih (fun s i hi => hstep s i (List.mem_cons_of_mem j hi)) s1 i1
    refine ⟨s2, ?_, i2, htrans _ _ _ r1 r2, ?_⟩
    · rw [List.foldlM_cons, e1]
      exact e2
    · intro i hi
      rcases List.mem_cons.1 hi with h | h
      · rw [h]; exact hstable j s1 s2 p1 r2
      · exact p2 i h

/-- One iteration of the exploration loop, for a unit direction `(dx, dy)`:
it returns, keeps the loop invariant, only carves, and leaves the cell two
steps away in that direction open when it is inside the grid. -/
theorem exploreDir_spec {size sx sy : Int} {draws : Nat → Nat} {fuel : Nat}
    (ih : GenSpec size sx sy draws fuel) (x y : Int) (m : Maze)
    (hlat : onLattice sx sy (x, y)) (dx dy : Int) (hd : dx.natAbs + dy.natAbs = 1)
    (st : Maze × Nat) (hst : LoopInv size sx sy (fuel + 1) x y m st) :
    ∃ s', exploreDir (generateMaze size draws fuel) size x y dx dy st = some s' ∧
      LoopInv size sx sy (fuel + 1) x y m s' ∧ Carved st.1 s'.1 ∧
      (¬ inBounds size (x + 2 * dx) (y + 2 * dy) ∨
        isOpen s'.1 (x + 2 * dx, y + 2 * dy) = true) := by
  have hP : CellType.PATH ≠ CellType.WALL := by decide
  obtain ⟨sinv, scur, scount, sacc⟩ := hst
  have hlx : x % 2 = sx % 2 := hlat.1
  have hly : y % 2 = sy % 2 := hlat.2
  unfold exploreDir
  simp only
  by_cases hv : isValidPosition size st.1 (x + 2 * dx) (y + 2 * dy) = true
  · obtain ⟨htb, hw⟩ := (isValidPosition_iff _ _ _ _).1 hv
    have htl : onLattice sx sy (x + 2 * dx, y + 2 * dy) := by
      unfold onLattice; simp only; omega
    have h3 := hasThreeWalls_eq_false sinv _ _ htl hw
    have hcond : (isValidPosition size st.1 (x + 2 * dx) (y + 2 * dy) &&
        !hasThreeWalls size st.1 (x + 2 * dx) (y + 2 * dy)) = true := by
      rw [hv, h3]
      rfl
    rw [if_pos hcond]
    have cA : Carved st.1 (setCell st.1 (x + dx) (y + dy) CellType.PATH) :=
      Carved.setCell _ _ _ (fun t ht => sinv.tags _ _ t ht)
    have hwA : cellAt (setCell st.1 (x + dx) (y + dy) CellType.PATH)
        (x + 2 * dx) (y + 2 * dy) = some CellType.WALL := by
      rw [cellAt_setCell, if_neg, hw]
      rintro ⟨h1, h2, _⟩
      omega
    have cB : Carved (setCell st.1 (x + dx) (y + dy) CellType.PATH)
        (setCell (setCell st.1 (x + dx) (y + dy) CellType.PATH)
          (x + 2 * dx) (y + 2 * dy) CellType.PATH) :=
      Carved.setCell _ _ _ (fun t ht => by
        rw [hwA] at ht
        left; exact (Option.some.inj ht).symm)
    have hcount : wallCount size (setCell (setCell st.1 (x + dx) (y + dy) CellType.PATH)
        (x + 2 * dx) (y + 2 * dy) CellType.PATH) < fuel := by
      have h1 := wallCount_setCell_lt size _ _ _ htb hwA
      have h2 := cA.wallCount_le size
      omega
    obtain ⟨m2, k2, e2, inv2, c2, closed2⟩ :=
      ih (x + 2 * dx) (y + 2 * dy) (setCell st.1 (x + dx) (y + dy) CellType.PATH) st.2
        htb htl (sinv.carve x y dx dy hd hlat scur htb hw) hcount
    have cAll : Carved st.1 m2 := cA.trans (cB.trans c2)
    refine ⟨(m2, k2), e2, ⟨inv2, cAll.isOpen _ scur, ?_, ?_⟩, cAll, Or.inr ?_⟩
    · have := cAll.wallCount_le size
      simp only
      omega
    · intro a hal hao
      rcases closed2 a hal hao with h | h
      · rcases (isOpen_setCell st.1 _ _ _ hP a).1 h with h' | ⟨h', _⟩
        · rcases sacc a hal h' with g | g | g
          · exact Or.inl g
          · exact Or.inr (Or.inl g)
          · exact Or.inr (Or.inr (g.carved cAll))
        · exfalso
          have hal1 : a.1 % 2 = sx % 2 := hal.1
          have hal2 : a.2 % 2 = sy % 2 := hal.2
          rw [h'] at hal1 hal2
          simp only at hal1 hal2
          omega
      · exact Or.inr (Or.inr h)
    · apply c2.isOpen
      refine (isOpen_setCell _ _ _ _ hP _).2 (Or.inr ⟨rfl, ?_⟩)
      rw [hwA]
      simp
  · have hcond : (isValidPosition size st.1 (x + 2 * dx) (y + 2 * dy) &&
        !hasThreeWalls size st.1 (x + 2 * dx) (y + 2 * dy)) = false := by
      simp only [Bool.not_eq_true] at hv
      rw [hv]
      rfl
    rw [if_neg (by rw [hcond]; decide)]
    refine ⟨st, rfl, ⟨sinv, scur, scount, sacc⟩, Carved.refl _, ?_⟩
    by_cases htb : inBounds size (x + 2 * dx) (y + 2 * dy)
    · right
      have hne := (sinv.dom _ _).2 htb
      unfold isOpen
      simp only
      cases hc : cellAt st.1 (x + 2 * dx) (y + 2 * dy) with
      | none => exact absurd hc hne
      | some t =>
        simp only
        cases t
        · rfl
        · exact absurd ((isValidPosition_iff _ _ _ _).2 ⟨htb, hc⟩) hv
        · rfl
        · rfl
    · exact Or.inl htb

/-- The specification of `generateMaze` holds for every fuel. -/
theorem generateMaze_spec (size sx sy : Int) (draws : Nat → Nat) (fuel : Nat) :
    GenSpec size sx sy draws fuel := by
  have hP : CellType.PATH ≠ CellType.WALL := by decide
  induction fuel with
  | zero => intro x y m k _ _ _ h; exact absurd h (Nat.not_lt_zero _)
  | succ fuel ih =>
    intro x y m k hb hlat inv hfuel
    obtain ⟨hk, hunit, hall⟩ := shuffleDirs_spec draws k
    have hex : cellAt m x y ≠ none :=
      (cellAt_setCell_ne_none m x y x y CellType.PATH).1 ((inv.dom x y).2 hb)
    have hcur1 : isOpen (setCell m x y CellType.PATH) (x, y) = true :=
      (isOpen_setCell m x y _ hP (x, y)).2 (Or.inr ⟨rfl, hex⟩)
    have hinit : LoopInv size sx sy (fuel + 1) x y m
        (setCell m x y CellType.PATH, (shuffleDirs draws k).2.2) := by
      refine ⟨inv, hcur1, hfuel, ?_⟩
      intro a _ hao
      rcases (isOpen_setCell m x y _ hP a).1 hao with h | ⟨h, _⟩
      · exact Or.inr (Or.inl h)
      · exact Or.inl h
    -- the loop over the four directions
    obtain ⟨s', e', ⟨inv', _, _, hacc⟩, hR, hpost⟩ :=
      foldlM_option_inv
        (fun st i => exploreDir (generateMaze size draws fuel) size x y
          ((shuffleDirs draws k).1.getD i 0) ((shuffleDirs draws k).2.1.getD i 0) st)
        (LoopInv size sx sy (fuel + 1) x y m)
        (fun st st' => Carved st.1 st'.1)
        (fun i st => ¬ inBounds size (x + 2 * (shuffleDirs draws k).1.getD i 0)
            (y + 2 * (shuffleDirs draws k).2.1.getD i 0) ∨
          isOpen st.1 (x + 2 * (shuffleDirs draws k).1.getD i 0,
            y + 2 * (shuffleDirs draws k).2.1.getD i 0) = true)
        (fun s => Carved.refl s.1)
        (fun _ _ _ h1 h2 => h1.trans h2)
        (fun i s s' hp hr => hp.imp id (fun h => hr.isOpen _ h))
        [0, 1, 2, 3]
        (fun st i hi hst => exploreDir_spec ih x y m hlat _ _ (hunit i hi) st hst)
        (setCell m x y CellType.PATH, (shuffleDirs draws k).2.2) hinit
    refine ⟨s'.1, s'.2, e', inv', hR, ?_⟩
    intro a hal hao
    rcases hacc a hal hao with h | h | h
    · right
      rw [h]
      intro dx dy hd hbt
      obtain ⟨i, hi, e1, e2⟩ := hall dx dy hd
      rcases hpost i hi with hp | hp
      · rw [e1, e2] at hp
        exact absurd hbt hp
      · rw [e1, e2] at hp
        exact hp
    · exact Or.inl h
    · exact Or.inr h

/-! ## The constructor -/

/-- The cells of the all-wall grid. -/
theorem cellAt_allWalls (size x y : Int) :
    cellAt (allWalls size) x y = if inBounds size x y then some CellType.WALL else none := by
  unfold cellAt allWalls inBounds
  by_cases h : x < 0 ∨ y < 0
  · rw [if_pos h, if_neg (by omega)]
  · rw [if_neg h]
    simp only [List.get?_eq_getElem?, List.getElem?_replicate]
    by_cases hx : x.toNat < size.toNat
    · rw [if_pos hx]
      simp only [List.getElem?_replicate]
      by_cases hy : y.toNat < size.toNat
      · rw [if_pos hy, if_pos (by omega)]
      · rw [if_neg hy, if_neg (by omega)]
    · rw [if_neg hx, if_neg (by omega)]

/-- The grid has at most `size * size` walls. -/
theorem wallCount_le_square (size : Int) (m : Maze) :
    wallCount size m ≤ size.toNat * size.toNat := by
  unfold wallCount
  refine le_trans (Finset.card_filter_le _ _) ?_
  rw [Finset.card_product, Int.card_Icc]
  have : (size - 1 + 1 - 0).toNat = size.toNat := by
    congr 1
    omega
  rw [this]

/-- A graph without edges has no cycle. -/
theorem isAcyclic_of_no_edge {V : Type} (G : SimpleGraph V) (h : ∀ a b, ¬ G.Adj a b) :
    G.IsAcyclic := by
  have : G = ⊥ := by
    ext a b
    simp only [SimpleGraph.bot_adj, iff_false]
    exact h a b
  rw [this]
  exact SimpleGraph.isAcyclic_bot

/-- The invariant holds of the all-wall grid with the seed opened. -/
theorem GenInv.init (size sx sy : Int) :
    GenInv size sx sy (setCell (allWalls size) sx sy CellType.PATH) := by
  have hP : CellType.PATH ≠ CellType.WALL := by decide
  have hopen : ∀ a, isOpen (setCell (allWalls size) sx sy CellType.PATH) a = true →
      a = (sx, sy) := by
    intro a ha
    rcases (isOpen_setCell _ _ _ _ hP a).1 ha with h | ⟨h, _⟩
    · exfalso
      unfold isOpen at h
      rw [cellAt_allWalls] at h
      split_ifs at h
      · simp at h
    · exact h
  refine ⟨?_, ?_, ?_, ?_, ?_, ?_, ?_⟩
  · intro x y
    rw [cellAt_setCell_ne_none, cellAt_allWalls]
    by_cases h : inBounds size x y
    · simp [h]
    · simp [h]
  · intro x y t h
    rw [cellAt_setCell] at h
    split_ifs at h
    · right; exact (Option.some.inj h).symm
    · rw [cellAt_allWalls] at h
      split_ifs at h
      left; exact (Option.some.inj h).symm
  · intro a h1 h2
    cases ho : isOpen (setCell (allWalls size) sx sy CellType.PATH) a
    · rfl
    · rw [hopen a ho] at h1
      exact absurd rfl h1
  · intro a ha h1
    rw [hopen a ha] at h1
    exact absurd rfl h1
  · intro a ha h1
    rw [hopen a ha] at h1
    exact absurd rfl h1
  · apply isAcyclic_of_no_edge
    intro a b hab
    have e1 := hopen a hab.1
    have e2 := hopen b hab.2.1
    exact (mazeGraph _).ne_of_adj hab (e1.trans e2.symm)
  · intro a ha
    rw [hopen a ha]

/-- When every open lattice cell has all its lattice neighbours open and
the seed is open, every lattice cell of the grid is open. -/
theorem lattice_open_of_closed (size sx sy : Int) (m : Maze) (hb : inBounds size sx sy)
    (hseed : isOpen m (sx, sy) = true)
    (hclosed : ∀ a, onLattice sx sy a → isOpen m a = true → Closed size m a) :
    ∀ (n : Nat) (a : Int × Int), (a.1 - sx).natAbs + (a.2 - sy).natAbs = n →
      onLattice sx sy a → inBounds size a.1 a.2 → isOpen m a = true := by
  intro n
  induction n using Nat.strong_induction_on with
  | _ n ih =>
    intro a hn hal hab
    have hl1 : a.1 % 2 = sx % 2 := hal.1
    have hl2 : a.2 % 2 = sy % 2 := hal.2
    unfold inBounds at hb hab
    have step : ∀ (b : Int × Int) (dx dy : Int), dx.natAbs + dy.natAbs = 1 →
        a = (b.1 + 2 * dx, b.2 + 2 * dy) → onLattice sx sy b → inBounds size b.1 b.2 →
        (b.1 - sx).natAbs + (b.2 - sy).natAbs < n → isOpen m a = true := by
      intro b dx dy hd hab' hbl hbb hlt
      have hbo := ih _ hlt b rfl hbl hbb
      have e1 := congrArg Prod.fst hab'
      have e2 := congrArg Prod.snd hab'
      simp only at e1 e2
      have := hclosed b hbl hbo dx dy hd (by unfold inBounds; omega)
      rw [hab']
      exact this
    by_cases h1 : a.1 = sx
    · by_cases h2 : a.2 = sy
      · have : a = (sx, sy) := Prod.ext h1 h2
        rw [this]; exact hseed
      · rcases lt_or_gt_of_ne h2 with h | h
        · exact step (a.1, a.2 + 2) 0 (-1) (by decide) (Prod.ext (by simp) (by simp))
            ⟨hl1, by simp only; omega⟩ (by unfold inBounds; simp only; omega)
            (by simp only; omega)
        · exact step (a.1, a.2 - 2) 0 1 (by decide) (Prod.ext (by simp) (by simp))
            ⟨hl1, by simp only; omega⟩ (by unfold inBounds; simp only; omega)
            (by simp only; omega)
    · rcases lt_or_gt_of_ne h1 with h | h
      · exact step (a.1 + 2, a.2) (-1) 0 (by decide) (Prod.ext (by simp) (by simp))
          ⟨by simp only; omega, hl2⟩ (by unfold inBounds; simp only; omega)
          (by simp only; omega)
      · exact step (a.1 - 2, a.2) 1 0 (by decide) (Prod.ext (by simp) (by simp))
          ⟨by simp only; omega, hl2⟩ (by unfold inBounds; simp only; omega)
          (by simp only; omega)

/-- The run of `generateMaze` made by the constructor: with the fuel
`size * size + 1` the recursion returns, and the grid it leaves satisfies
the invariant and has every lattice cell open. -/
theorem generateMaze_from_allWalls (size sx sy : Int) (draws : Nat → Nat)
    (hb : inBounds size sx sy) :
    ∃ m k, generateMaze size draws (size.toNat * size.toNat + 1) sx sy (allWalls size) 0
        = some (m, k) ∧
      GenInv size sx sy m ∧
      ∀ a, onLattice sx sy a → inBounds size a.1 a.2 → isOpen m a = true := by
  have hP : CellType.PATH ≠ CellType.WALL := by decide
  obtain ⟨m, k, e, inv, hc, hclosed⟩ :=
    generateMaze_spec size sx sy draws (size.toNat * size.toNat + 1) sx sy (allWalls size) 0
      hb ⟨rfl, rfl⟩ (GenInv.init size sx sy)
      (Nat.lt_succ_of_le (wallCount_le_square size _))
  refine ⟨m, k, e, inv, ?_⟩
  have hseed : isOpen m (sx, sy) = true := by
    apply hc.isOpen
    refine (isOpen_setCell _ _ _ _ hP _).2 (Or.inr ⟨rfl, ?_⟩)
    rw [cellAt_allWalls, if_pos hb]
    simp
  have hcl : ∀ a, onLattice sx sy a → isOpen m a = true → Closed size m a := by
    intro a hal hao
    rcases hclosed a hal hao with h | h
    · exfalso
      unfold isOpen at h
      rw [cellAt_allWalls] at h
      split_ifs at h
      · simp at h
    · exact h
  intro a hal hab
  exact lattice_open_of_closed size sx sy m hb hseed hcl _ a rfl hal hab

/-- The grid built by the constructor, in terms of the grid left by
`generateMaze`. -/
theorem MazeGenerator_eq (size sx sy : Int) (draws : Nat → Nat) (m : Maze) (k : Nat)
    (h : generateMaze size draws (size.toNat * size.toNat + 1) sx sy (allWalls size) 0
      = some (m, k)) :
    MazeGenerator size sx sy draws =
      some (setCell (setCell m sx sy CellType.START) (size - 1) (size - (sy + 1))
        CellType.END) := by
  unfold MazeGenerator
  rw [h]

/-- The cells of the grid built by the constructor. -/
theorem cellAt_final {size sx sy : Int} {m : Maze} (inv : GenInv size sx sy m)
    (hx : 0 ≤ sx ∧ sx < size) (hy : 0 ≤ sy ∧ sy < size) (a b : Int) :
    cellAt (setCell (setCell m sx sy CellType.START) (size - 1) (size - (sy + 1))
        CellType.END) a b =
      if a = size - 1 ∧ b = size - (sy + 1) then some CellType.END
      else if a = sx ∧ b = sy then some CellType.START
      else cellAt m a b := by
  have h1 : cellAt m sx sy ≠ none := (inv.dom _ _).2 ⟨hx.1, hx.2, hy.1, hy.2⟩
  have h2 : cellAt (setCell m sx sy CellType.START) (size - 1) (size - (sy + 1)) ≠ none := by
    rw [cellAt_setCell_ne_none]
    exact (inv.dom _ _).2 (by unfold inBounds; omega)
  have i1 : (cellAt m sx sy).isSome = true := Option.isSome_iff_ne_none.2 h1
  have i2 : (cellAt (setCell m sx sy CellType.START) (size - 1) (size - (sy + 1))).isSome
      = true := Option.isSome_iff_ne_none.2 h2
  rw [cellAt_setCell _ _ _ a b]
  simp only [i2, and_true]
  rw [cellAt_setCell _ _ _ a b]
  simp only [i1, and_true]

/-- C1: for every odd size (in particular every odd size of at least 5),
every in-bounds seed and every sequence of draws, the constructor returns a
grid whose non-wall cells form a graph without cycle under 4-adjacency, and
any two non-wall cells that have the seed's parity on both axes are joined
by exactly one simple path of 4-adjacent non-wall cells. -/
theorem generated_maze_perfect (size sx sy : Int) (draws : Nat → Nat) (hodd : size % 2 = 1)
    (hx : 0 ≤ sx ∧ sx < size) (hy : 0 ≤ sy ∧ sy < size) :
    ∃ maze, MazeGenerator size sx sy draws = some maze ∧
      (mazeGraph maze).IsAcyclic ∧
      ∀ a b : Int × Int, isOpen maze a = true → isOpen maze b = true →
        onLattice sx sy a → onLattice sx sy b →
        ∃! p : (mazeGraph maze).Walk a b, p.IsPath := by
  have hS : CellType.START ≠ CellType.WALL := by decide
  have hE : CellType.END ≠ CellType.WALL := by decide
  obtain ⟨m, k, e, inv, hfull⟩ :=
    generateMaze_from_allWalls size sx sy draws ⟨hx.1, hx.2, hy.1, hy.2⟩
  refine ⟨_, MazeGenerator_eq size sx sy draws m k e, ?_⟩
  have hseed : isOpen m (sx, sy) = true :=
    hfull (sx, sy) ⟨rfl, rfl⟩ ⟨hx.1, hx.2, hy.1, hy.2⟩
  -- tagging the seed does not change the open cells
  have hopS : ∀ a, isOpen (setCell m sx sy CellType.START) a = isOpen m a := by
    intro a
    rw [Bool.eq_iff_iff, isOpen_setCell m sx sy _ hS]
    constructor
    · rintro (h | ⟨h, _⟩)
      · exact h
      · rw [h]; exact hseed
    · exact Or.inl
  have hgS : mazeGraph (setCell m sx sy CellType.START) = mazeGraph m :=
    mazeGraph_congr _ _ hopS
  have hopE : ∀ a, isOpen m a = true →
      isOpen (setCell (setCell m sx sy CellType.START) (size - 1) (size - (sy + 1))
        CellType.END) a = true := by
    intro a ha
    rw [isOpen_setCell _ _ _ _ hE, hopS]
    exact Or.inl ha
  have hacyc : (mazeGraph (setCell (setCell m sx sy CellType.START) (size - 1)
      (size - (sy + 1)) CellType.END)).IsAcyclic := by
    by_cases hopen : isOpen m (size - 1, size - (sy + 1)) = true
    · -- the cell tagged `END` was open: the graph is the one left by the carving
      have hsame : mazeGraph (setCell (setCell m sx sy CellType.START) (size - 1)
          (size - (sy + 1)) CellType.END) = mazeGraph m := by
        apply mazeGraph_congr
        intro a
        rw [Bool.eq_iff_iff, isOpen_setCell _ _ _ _ hE, hopS]
        constructor
        · rintro (h | ⟨h, _⟩)
          · exact h
          · rw [h]; exact hopen
        · exact Or.inl
      rw [hsame]
      exact inv.acyc
    · -- otherwise it lies on the last row, off the lattice, and has at most
      -- one open neighbour
      apply mazeGraph_acyclic_setCell _ (size - 1, size - (sy + 1)) _ hE
      · rw [hgS]; exact inv.acyc
      · have key : ∀ a : Int × Int, adjacent4 (size - 1, size - (sy + 1)) a →
            isOpen m a = true → a = (size - 2, size - (sy + 1)) := by
          intro a hadj ha
          unfold adjacent4 at hadj
          simp only at hadj
          have hab : inBounds size a.1 a.2 :=
            (inv.dom _ _).1 (cellAt_ne_none_of_isOpen m a ha)
          unfold inBounds at hab
          have hnl : ¬ (size - 1) % 2 = sx % 2 := by
            intro hl
            exact hopen (hfull _ ⟨hl, by simp only; omega⟩
              (by unfold inBounds; simp only; omega))
          by_cases hcorner : a.1 % 2 ≠ sx % 2 ∧ a.2 % 2 ≠ sy % 2
          · rw [inv.corner a hcorner.1 hcorner.2] at ha
            cases ha
          · exact Prod.ext (by simp only; omega) (by simp only; omega)
        intro a b ha hb oa ob
        rw [hopS] at oa ob
        exact (key a ha oa).trans (key b hb ob).symm
  refine ⟨hacyc, ?_⟩
  intro a b ha hb hal hbl
  have hopen_m : ∀ c : Int × Int, isOpen (setCell (setCell m sx sy CellType.START) (size - 1)
      (size - (sy + 1)) CellType.END) c = true → onLattice sx sy c → isOpen m c = true := by
    intro c hc hcl
    rcases (isOpen_setCell _ _ _ _ hE c).1 hc with h | ⟨h, _⟩
    · rw [hopS] at h; exact h
    · apply hfull c hcl
      rw [h]
      unfold inBounds
      simp only
      omega
  have hreach : (mazeGraph (setCell (setCell m sx sy CellType.START) (size - 1)
      (size - (sy + 1)) CellType.END)).Reachable a b :=
    (((inv.reach a (hopen_m a ha hal)).symm.trans (inv.reach b (hopen_m b hb hbl))).mono
      (mazeGraph_mono _ _ hopE))
  obtain ⟨w⟩ := hreach
  refine ⟨w.toPath.1, w.toPath.2, ?_⟩
  intro q hq
  exact congrArg Subtype.val (hacyc.path_unique ⟨q, hq⟩ w.toPath)

/-- Witness of C1: size 5, seed (1, 1). -/
theorem generated_maze_perfect_witness :
    ∃ maze, MazeGenerator 5 1 1 (fun n => n * 7 + 3) = some maze ∧
      (mazeGraph maze).IsAcyclic ∧
      ∀ a b : Int × Int, isOpen maze a = true → isOpen maze b = true →
        onLattice 1 1 a → onLattice 1 1 b →
        ∃! p : (mazeGraph maze).Walk a b, p.IsPath :=
  generated_maze_perfect 5 1 1 (fun n => n * 7 + 3) (by decide) (by decide) (by decide)

/-- C12: for every odd size of at least 5, the seed (1, 1) and every sequence
of draws, the constructor returns a grid in which every cell of the grid
with both coordinates odd is open (not a wall), the cell (1, 1) is tagged
`START`, the cell `(size - 1, size - 2)` is tagged `END`, and the two are
joined by a simple path of 4-adjacent open cells. -/
theorem exit_reachable (size : Int) (draws : Nat → Nat) (hodd : size % 2 = 1)
    (h5 : 5 ≤ size) :
    ∃ maze, MazeGenerator size 1 1 draws = some maze ∧
      (∀ a : Int × Int, inBounds size a.1 a.2 → a.1 % 2 = 1 → a.2 % 2 = 1 →
        isOpen maze a = true) ∧
      cellAt maze 1 1 = some CellType.START ∧
      cellAt maze (size - 1) (size - 2) = some CellType.END ∧
      (mazeGraph maze).Reachable (1, 1) (size - 1, size - 2) ∧
      ∃ p : (mazeGraph maze).Walk (1, 1) (size - 1, size - 2), p.IsPath := by
  have hS : CellType.START ≠ CellType.WALL := by decide
  have hE : CellType.END ≠ CellType.WALL := by decide
  have hx : (0 : Int) ≤ 1 ∧ (1 : Int) < size := ⟨by decide, by omega⟩
  obtain ⟨m, k, e, inv, hfull⟩ :=
    generateMaze_from_allWalls size 1 1 draws ⟨hx.1, hx.2, hx.1, hx.2⟩
  refine ⟨_, MazeGenerator_eq size 1 1 draws m k e, ?_⟩
  have hopE : ∀ a, isOpen m a = true →
      isOpen (setCell (setCell m 1 1 CellType.START) (size - 1) (size - (1 + 1))
        CellType.END) a = true := by
    intro a ha
    rw [isOpen_setCell _ _ _ _ hE, isOpen_setCell _ _ _ _ hS]
    exact Or.inl (Or.inl ha)
  have hend : cellAt (setCell (setCell m 1 1 CellType.START) (size - 1) (size - (1 + 1))
      CellType.END) (size - 1) (size - 2) = some CellType.END := by
    rw [cellAt_final inv hx hx, if_pos ⟨rfl, by ring⟩]
  have hendOpen : isOpen (setCell (setCell m 1 1 CellType.START) (size - 1) (size - (1 + 1))
      CellType.END) (size - 1, size - 2) = true := by
    unfold isOpen
    simp only [hend]
    rfl
  have hreach : (mazeGraph (setCell (setCell m 1 1 CellType.START) (size - 1)
      (size - (1 + 1)) CellType.END)).Reachable (1, 1) (size - 1, size - 2) := by
    have hn : isOpen m (size - 2, size - 2) = true :=
      hfull (size - 2, size - 2) ⟨by simp only; omega, by simp only; omega⟩
        (by unfold inBounds; simp only; omega)
    have h1 := (inv.reach _ hn).mono (mazeGraph_mono _ _ hopE)
    have hadj : (mazeGraph (setCell (setCell m 1 1 CellType.START) (size - 1)
        (size - (1 + 1)) CellType.END)).Adj (size - 2, size - 2) (size - 1, size - 2) := by
      refine ⟨hopE _ hn, hendOpen, ?_⟩
      unfold adjacent4
      simp only
      omega
    exact h1.trans hadj.reachable
  refine ⟨?_, ?_, hend, hreach, ?_⟩
  · intro a hab h1 h2
    exact hopE a (hfull a ⟨by omega, by omega⟩ hab)
  · rw [cellAt_final inv hx hx, if_neg (by omega), if_pos ⟨rfl, rfl⟩]
  · obtain ⟨w⟩ := hreach
    exact ⟨w.toPath.1, w.toPath.2⟩

/-! ## The instrumented generator -/

/-- A loop in the `Option` monad run on a richer state projects onto the loop
on the poorer state when each iteration does. -/
theorem foldlM_option_map {σ' σ ι : Type} (π : σ' → σ) (f' : σ' → ι → Option σ')
    (f : σ → ι → Option σ) (h : ∀ s i, (f' s i).map π = f (π s) i) :
    ∀ (l : List ι) (s : σ'), (l.foldlM f' s).map π = l.foldlM f (π s) := by
  intro l
  induction l with
  | nil => intro s; rfl
  | cons i l ih =>
    intro s
    rw [List.foldlM_cons, List.foldlM_cons, ← h s i]
    cases hs : f' s i with
    | none => rfl
    | some s1 => exact ih s1

/-- Forgetting the log of `exploreDirLogged` gives `exploreDir`. -/
theorem exploreDirLogged_erase
    (genL : Int → Int → Maze → Nat → List GenEvent → Option (Maze × Nat × List GenEvent))
    (gen : Int → Int → Maze → Nat → Option (Maze × Nat))
    (hgen : ∀ a b m k log, (genL a b m k log).map (fun r => (r.1, r.2.1)) = gen a b m k)
    (size x y dx dy : Int) (st : Maze × Nat × List GenEvent) :
    (exploreDirLogged genL size x y dx dy st).map (fun r => (r.1, r.2.1)) =
      exploreDir gen size x y dx dy (st.1, st.2.1) := by
  unfold exploreDirLogged exploreDir
  simp only
  cases hv : isValidPosition size st.1 (x + 2 * dx) (y + 2 * dy) <;>
    cases h3 : hasThreeWalls size st.1 (x + 2 * dx) (y + 2 * dy) <;>
    simp [hgen]

/-- Forgetting the log of `generateMazeLogged` gives `generateMaze`: the
instrumented generator computes the same grid and reads the same draws. -/
theorem generateMazeLogged_erase (size : Int) (draws : Nat → Nat) :
    ∀ (fuel : Nat) (x y : Int) (m : Maze) (k : Nat) (log : List GenEvent),
      (generateMazeLogged size draws fuel x y m k log).map (fun r => (r.1, r.2.1)) =
        generateMaze size draws fuel x y m k := by
  intro fuel
  induction fuel with
  | zero => intro x y m k log; rfl
  | succ fuel ih =>
    intro x y m k log
    unfold generateMazeLogged generateMaze
    exact foldlM_option_map (fun r : Maze × Nat × List GenEvent => (r.1, r.2.1)) _ _
      (fun s i => exploreDirLogged_erase _ _ ih size x y _ _ s) [0, 1, 2, 3] _

/-- What the loop invariant gives for a direction whose target passes
`isValidPosition`: the target is a wall cell of the grid and of the lattice
without `PATH` neighbour, `hasThreeWalls` returns false on it, and the
recursive call on it is made on a grid that meets the hypotheses of the
specification of `generateMaze`. -/
theorem LoopInv.valid_target {size sx sy : Int} {fuel : Nat} {x y : Int} {m : Maze}
    {st : Maze × Nat} (hst : LoopInv size sx sy (fuel + 1) x y m st)
    (hlat : onLattice sx sy (x, y)) (dx dy : Int) (hd : dx.natAbs + dy.natAbs = 1)
    (hv : isValidPosition size st.1 (x + 2 * dx) (y + 2 * dy) = true) :
    inBounds size (x + 2 * dx) (y + 2 * dy) ∧ onLattice sx sy (x + 2 * dx, y + 2 * dy) ∧
    hasThreeWalls size st.1 (x + 2 * dx) (y + 2 * dy) = false ∧
    (∀ b : Int × Int, adjacent4 (x + 2 * dx, y + 2 * dy) b →
      cellAt st.1 b.1 b.2 ≠ some CellType.PATH) ∧
    Carved st.1 (setCell st.1 (x + dx) (y + dy) CellType.PATH) ∧
    cellAt (setCell st.1 (x + dx) (y + dy) CellType.PATH) (x + 2 * dx) (y + 2 * dy)
      = some CellType.WALL ∧
    GenInv size sx sy (setCell (setCell st.1 (x + dx) (y + dy) CellType.PATH)
      (x + 2 * dx) (y + 2 * dy) CellType.PATH) ∧
    wallCount size (setCell (setCell st.1 (x + dx) (y + dy) CellType.PATH)
      (x + 2 * dx) (y + 2 * dy) CellType.PATH) < fuel := by
  obtain ⟨sinv, scur, scount, _⟩ := hst
  have hlx : x % 2 = sx % 2 := hlat.1
  have hly : y % 2 = sy % 2 := hlat.2
  obtain ⟨htb, hw⟩ := (isValidPosition_iff _ _ _ _).1 hv
  have htl : onLattice sx sy (x + 2 * dx, y + 2 * dy) := by
    unfold onLattice; simp only; omega
  have cA : Carved st.1 (setCell st.1 (x + dx) (y + dy) CellType.PATH) :=
    Carved.setCell _ _ _ (fun t ht => sinv.tags _ _ t ht)
  have hwA : cellAt (setCell st.1 (x + dx) (y + dy) CellType.PATH)
      (x + 2 * dx) (y + 2 * dy) = some CellType.WALL := by
    rw [cellAt_setCell, if_neg, hw]
    rintro ⟨h1, h2, _⟩
    omega
  refine ⟨htb, htl, hasThreeWalls_eq_false sinv _ _ htl hw, ?_, cA, hwA,
    sinv.carve x y dx dy hd hlat scur htb hw, ?_⟩
  · intro b hadj hb
    have hbo : isOpen st.1 b = true := by
      unfold isOpen
      simp only [hb]
      rfl
    rw [sinv.wall_neighbour _ htl (isOpen_of_wall _ _ hw) b hadj] at hbo
    cases hbo
  · have h1 := wallCount_setCell_lt size _ _ _ htb hwA
    have h2 := cA.wallCount_le size
    omega

/-- The log invariant survives carving. -/
theorem LogInv.of_carved {size : Int} {bound : Nat} {m m' : Maze} {log : List GenEvent}
    (h : LogInv size bound m log) (hc : Carved m m') : LogInv size bound m' log := by
  obtain ⟨h1, h2, h3, h4, h5⟩ := h
  refine ⟨h1, h2, h3, ?_, ?_⟩
  · intro c hcm hw
    rcases hc c.1 c.2 with e | ⟨e1, _⟩
    · rw [e] at hw; exact h4 c hcm hw
    · exact h4 c hcm e1
  · have := hc.wallCount_le size
    omega

/-- Recording an evaluation of `hasThreeWalls` that returned false on a
valid cell without `PATH` neighbour keeps the log invariant. -/
theorem LogInv.cons_check {size : Int} {bound : Nat} {m : Maze} {log : List GenEvent}
    (h : LogInv size bound m log) (x y : Int) (g : Maze)
    (hv : isValidPosition size g x y = true)
    (hn : ∀ b : Int × Int, adjacent4 (x, y) b → cellAt g b.1 b.2 ≠ some CellType.PATH)
    (h3 : hasThreeWalls size g x y = false) :
    LogInv size bound m (GenEvent.check x y g :: log) := by
  obtain ⟨h1, h2, h4, h5, h6⟩ := h
  have he : enteredCells (GenEvent.check x y g :: log) = enteredCells log := rfl
  refine ⟨?_, ?_, by rw [he]; exact h4, by rw [he]; exact h5, by rw [he]; exact h6⟩
  · intro a b g' hmem
    rcases List.mem_cons.1 hmem with e | e
    · cases e
    · exact h1 a b g' e
  · intro a b g' hmem
    rcases List.mem_cons.1 hmem with e | e
    · cases e
      exact ⟨hv, hn, h3⟩
    · exact h2 a b g' e

/-- Recording the entry of a call on a wall cell of the grid, and opening the
cell, keeps the log invariant. -/
theorem LogInv.cons_enter {size : Int} {bound : Nat} {m : Maze} {log : List GenEvent}
    (h : LogInv size bound m log) (x y : Int) (hb : inBounds size x y)
    (hw : cellAt m x y = some CellType.WALL) :
    LogInv size bound (setCell m x y CellType.PATH) (GenEvent.enter x y m :: log) := by
  obtain ⟨h1, h2, h4, h5, h6⟩ := h
  have he : enteredCells (GenEvent.enter x y m :: log) = (x, y) :: enteredCells log := rfl
  refine ⟨?_, ?_, ?_, ?_, ?_⟩
  · intro a b g' hmem
    rcases List.mem_cons.1 hmem with e | e
    · cases e
      exact ⟨hb, hw⟩
    · exact h1 a b g' e
  · intro a b g' hmem
    rcases List.mem_cons.1 hmem with e | e
    · cases e
    · exact h2 a b g' e
  · rw [he, List.nodup_cons]
    exact ⟨fun hmem => h5 (x, y) hmem hw, h4⟩
  · intro c hc hwc
    rw [cellAt_setCell] at hwc
    split_ifs at hwc with hif
    · cases hwc
    · rw [he] at hc
      rcases List.mem_cons.1 hc with e | e
      · rw [e] at hwc hif
        apply hif
        refine ⟨rfl, rfl, ?_⟩
        rw [hw]
        rfl
      · exact h5 c e hwc
  · rw [he, List.length_cons]
    have := wallCount_setCell_lt size m x y hb hw
    omega

/-- One iteration of the instrumented exploration loop: it returns and keeps
the loop invariant and the log invariant. -/
theorem exploreDirLogged_spec {size sx sy : Int} {draws : Nat → Nat} {fuel bound : Nat}
    (ih : ∀ (x y : Int) (m : Maze) (k : Nat) (log : List GenEvent),
      inBounds size x y → onLattice sx sy (x, y) → cellAt m x y = some CellType.WALL →
      GenInv size sx sy (setCell m x y CellType.PATH) →
      wallCount size (setCell m x y CellType.PATH) < fuel → LogInv size bound m log →
      ∃ m' k' log', generateMazeLogged size draws fuel x y m k log = some (m', k', log') ∧
        LogInv size bound m' log')
    (x y : Int) (m : Maze) (hlat : onLattice sx sy (x, y)) (dx dy : Int)
    (hd : dx.natAbs + dy.natAbs = 1) (st : Maze × Nat × List GenEvent)
    (hloop : LoopInv size sx sy (fuel + 1) x y m (st.1, st.2.1))
    (hlog : LogInv size bound st.1 st.2.2) :
    ∃ s', exploreDirLogged (generateMazeLogged size draws fuel) size x y dx dy st = some s' ∧
      LoopInv size sx sy (fuel + 1) x y m (s'.1, s'.2.1) ∧ LogInv size bound s'.1 s'.2.2 := by
  obtain ⟨p', ep, hl', _, _⟩ :=
    exploreDir_spec (generateMaze_spec size sx sy draws fuel) x y m hlat dx dy hd
      (st.1, st.2.1) hloop
  have hproj := exploreDirLogged_erase (generateMazeLogged size draws fuel)
    (generateMaze size draws fuel) (generateMazeLogged_erase size draws fuel) size x y dx dy st
  rw [ep] at hproj
  obtain ⟨s', es, hπ⟩ := Option.map_eq_some'.1 hproj
  refine ⟨s', es, by rw [hπ]; exact hl', ?_⟩
  unfold exploreDirLogged at es
  simp only at es
  by_cases hv : isValidPosition size st.1 (x + 2 * dx) (y + 2 * dy) = true
  · obtain ⟨htb, htl, h3, hn, cA, hwA, hinv, hcount⟩ := hloop.valid_target hlat dx dy hd hv
    rw [if_pos hv, h3] at es
    simp only [Bool.not_false, if_true] at es
    obtain ⟨m2, k2, log2, e2, hlog2⟩ :=
      ih (x + 2 * dx) (y + 2 * dy) (setCell st.1 (x + dx) (y + dy) CellType.PATH) st.2.1
        (GenEvent.check (x + 2 * dx) (y + 2 * dy) st.1 :: st.2.2) htb htl hwA hinv hcount
        ((hlog.cons_check _ _ _ hv hn h3).of_carved cA)
    rw [e2] at es
    rw [← Option.some.inj es]
    exact hlog2
  · rw [if_neg hv] at es
    rw [← Option.some.inj es]
    exact hlog

/-- The specification of the instrumented generator: entered on a wall cell
under the hypotheses of the specification of `generateMaze`, with a log that
satisfies the log invariant, it returns with a log that satisfies it. -/
theorem generateMazeLogged_spec (size sx sy : Int) (draws : Nat → Nat) (bound : Nat) :
    ∀ (fuel : Nat) (x y : Int) (m : Maze) (k : Nat) (log : List GenEvent),
      inBounds size x y → onLattice sx sy (x, y) → cellAt m x y = some CellType.WALL →
      GenInv size sx sy (setCell m x y CellType.PATH) →
      wallCount size (setCell m x y CellType.PATH) < fuel → LogInv size bound m log →
      ∃ m' k' log', generateMazeLogged size draws fuel x y m k log = some (m', k', log') ∧
        LogInv size bound m' log' := by
  have hP : CellType.PATH ≠ CellType.WALL := by decide
  intro fuel
  induction fuel with
  | zero => intro x y m k log _ _ _ _ h; exact absurd h (Nat.not_lt_zero _)
  | succ fuel ih =>
    intro x y m k log hb hlat hw inv hfuel hlog
    obtain ⟨_, hunit, _⟩ := shuffleDirs_spec draws k
    have hcur1 : isOpen (setCell m x y CellType.PATH) (x, y) = true :=
      (isOpen_setCell m x y _ hP (x, y)).2 (Or.inr ⟨rfl, by rw [hw]; simp⟩)
    have hinit : LoopInv size sx sy (fuel + 1) x y m
        (setCell m x y CellType.PATH, (shuffleDirs draws k).2.2) := by
      refine ⟨inv, hcur1, hfuel, ?_⟩
      intro a _ hao
      rcases (isOpen_setCell m x y _ hP a).1 hao with h | ⟨h, _⟩
      · exact Or.inr (Or.inl h)
      · exact Or.inl h
    obtain ⟨s', e', ⟨_, hlog'⟩, _, _⟩ :=
      foldlM_option_inv
        (fun st i => exploreDirLogged (generateMazeLogged size draws fuel) size x y
          ((shuffleDirs draws k).1.getD i 0) ((shuffleDirs draws k).2.1.getD i 0) st)
        (fun st => LoopInv size sx sy (fuel + 1) x y m (st.1, st.2.1) ∧
          LogInv size bound st.1 st.2.2)
        (fun _ _ => True) (fun _ _ => True) (fun _ => trivial) (fun _ _ _ _ _ => trivial)
        (fun _ _ _ _ _ => trivial) [0, 1, 2, 3]
        (fun st i hi hst => by
          obtain ⟨s', es, h1, h2⟩ :=
            exploreDirLogged_spec ih x y m hlat _ _ (hunit i hi) st hst.1 hst.2
          exact ⟨s', es, ⟨h1, h2⟩, trivial, trivial⟩)
        (setCell m x y CellType.PATH, (shuffleDirs draws k).2.2, GenEvent.enter x y m :: log)
        ⟨hinit, hlog.cons_enter x y hb hw⟩
    exact ⟨s'.1, s'.2.1, s'.2.2, e', hlog'⟩

/-- The cells entered are those of the `enter` events of the log. -/
theorem mem_enteredCells (log : List GenEvent) (c : Int × Int) :
    c ∈ enteredCells log ↔ ∃ g, GenEvent.enter c.1 c.2 g ∈ log := by
  unfold enteredCells
  rw [List.mem_filterMap]
  constructor
  · rintro ⟨e, he, hc⟩
    cases e with
    | enter x y g =>
      simp only [Option.some.injEq] at hc
      rw [← hc]
      exact ⟨g, he⟩
    | check x y g => simp at hc
  · rintro ⟨g, hg⟩
    exact ⟨_, hg, rfl⟩

/-- The log invariant holds of the all-wall grid and the empty log. -/
theorem LogInv.empty_log (size : Int) :
    LogInv size (size.toNat * size.toNat) (allWalls size) [] := by
  refine ⟨?_, ?_, List.nodup_nil, ?_, ?_⟩
  · intro x y g h; cases h
  · intro x y g h; cases h
  · intro c h; cases h
  · simpa [enteredCells] using wallCount_le_square size (allWalls size)

/-- The instrumented run made from the all-wall grid: with any fuel above
`size * size` it returns, computes what `generateMaze` computes, and its log
satisfies the log invariant for the final grid, which satisfies the carving
invariant. -/
theorem generateMazeLogged_from_allWalls (size sx sy : Int) (draws : Nat → Nat)
    (hb : inBounds size sx sy) (fuel : Nat) (hfuel : size.toNat * size.toNat < fuel) :
    ∃ m k log, generateMazeLogged size draws fuel sx sy (allWalls size) 0 [] = some (m, k, log) ∧
      generateMaze size draws fuel sx sy (allWalls size) 0 = some (m, k) ∧
      GenInv size sx sy m ∧ LogInv size (size.toNat * size.toNat) m log := by
  have hw : cellAt (allWalls size) sx sy = some CellType.WALL := by
    rw [cellAt_allWalls, if_pos hb]
  have hcount : wallCount size (setCell (allWalls size) sx sy CellType.PATH) < fuel :=
    lt_of_le_of_lt (wallCount_le_square size _) hfuel
  obtain ⟨m, k, log, e, hlog⟩ :=
    generateMazeLogged_spec size sx sy draws (size.toNat * size.toNat) fuel sx sy
      (allWalls size) 0 [] hb ⟨rfl, rfl⟩ hw (GenInv.init size sx sy) hcount (LogInv.empty_log size)
  have hplain : generateMaze size draws fuel sx sy (allWalls size) 0 = some (m, k) := by
    rw [← generateMazeLogged_erase size draws fuel sx sy (allWalls size) 0 [], e]
    rfl
  obtain ⟨m', k', e', inv, _⟩ :=
    generateMaze_spec size sx sy draws fuel sx sy (allWalls size) 0 hb ⟨rfl, rfl⟩
      (GenInv.init size sx sy) hcount
  rw [hplain] at e'
  have hm : m = m' := congrArg Prod.fst (Option.some.inj e')
  exact ⟨m, k, log, e, hplain, hm ▸ inv, hlog⟩

/-- C11: for every size, every in-bounds seed (so the size is at least 1) and
every sequence of draws, the recursion of `generateMaze` started on the
all-wall grid returns as soon as the fuel exceeds `size * size`; every call,
the first included, is entered on a cell that is a wall at that moment, and
the cell is `PATH` afterwards; no cell is entered twice; the number of calls
is at most `size * size`; and the constructor returns a grid. -/
theorem generateMaze_terminates (size sx sy : Int) (draws : Nat → Nat)
    (hx : 0 ≤ sx ∧ sx < size) (hy : 0 ≤ sy ∧ sy < size) (fuel : Nat)
    (hfuel : size.toNat * size.toNat < fuel) :
    ∃ maze k log,
      generateMaze size draws fuel sx sy (allWalls size) 0 = some (maze, k) ∧
      generateMazeLogged size draws fuel sx sy (allWalls size) 0 [] = some (maze, k, log) ∧
      (∀ x y g, GenEvent.enter x y g ∈ log →
        inBounds size x y ∧ cellAt g x y = some CellType.WALL) ∧
      (∀ c ∈ enteredCells log, cellAt maze c.1 c.2 = some CellType.PATH) ∧
      (enteredCells log).Nodup ∧
      (enteredCells log).length ≤ size.toNat * size.toNat ∧
      ∃ grid, MazeGenerator size sx sy draws = some grid := by
  have hb : inBounds size sx sy := ⟨hx.1, hx.2, hy.1, hy.2⟩
  obtain ⟨m, k, log, e, hplain, inv, h1, _, h3, h4, h5⟩ :=
    generateMazeLogged_from_allWalls size sx sy draws hb fuel hfuel
  refine ⟨m, k, log, hplain, e, h1, ?_, h3, by omega, ?_⟩
  · intro c hc
    obtain ⟨g, hg⟩ := (mem_enteredCells log c).1 hc
    have hne := (inv.dom c.1 c.2).2 (h1 _ _ _ hg).1
    cases hcell : cellAt m c.1 c.2 with
    | none => exact absurd hcell hne
    | some t =>
      rcases inv.tags _ _ t hcell with ht | ht
      · rw [ht] at hcell
        exact absurd hcell (h4 c hc)
      · rw [ht]
  · obtain ⟨m0, k0, e0, _, _⟩ := generateMaze_from_allWalls size sx sy draws hb
    exact ⟨_, MazeGenerator_eq size sx sy draws m0 k0 e0⟩

/-- Witness of C11: size 5, seed (1, 1), fuel 26. -/
theorem generateMaze_terminates_witness :
    ∃ maze k log,
      generateMaze 5 (fun n => n * 7 + 3) 26 1 1 (allWalls 5) 0 = some (maze, k) ∧
      generateMazeLogged 5 (fun n => n * 7 + 3) 26 1 1 (allWalls 5) 0 [] = some (maze, k, log) ∧
      (∀ x y g, GenEvent.enter x y g ∈ log →
        inBounds 5 x y ∧ cellAt g x y = some CellType.WALL) ∧
      (∀ c ∈ enteredCells log, cellAt maze c.1 c.2 = some CellType.PATH) ∧
      (enteredCells log).Nodup ∧
      (enteredCells log).length ≤ (5 : Int).toNat * (5 : Int).toNat ∧
      ∃ grid, MazeGenerator 5 1 1 (fun n => n * 7 + 3) = some grid :=
  generateMaze_terminates 5 1 1 (fun n => n * 7 + 3) (by decide) (by decide) 26 (by decide)

/-- Witness of C12: size 5. -/
theorem exit_reachable_witness :
    ∃ maze, MazeGenerator 5 1 1 (fun n => n * 7 + 3) = some maze ∧
      (∀ a : Int × Int, inBounds 5 a.1 a.2 → a.1 % 2 = 1 → a.2 % 2 = 1 →
        isOpen maze a = true) ∧
      cellAt maze 1 1 = some CellType.START ∧
      cellAt maze (5 - 1) (5 - 2) = some CellType.END ∧
      (mazeGraph maze).Reachable (1, 1) (5 - 1, 5 - 2) ∧
      ∃ p : (mazeGraph maze).Walk (1, 1) (5 - 1, 5 - 2), p.IsPath :=
  exit_reachable 5 (fun n => n * 7 + 3) (by decide) (by decide)

/-! ## The carving without the `hasThreeWalls` condition -/

/-- Two loops in the `Option` monad whose bodies agree on the states of an
invariant kept by one of them compute the same result. -/
theorem foldlM_option_congr {σ ι : Type} (f g : σ → ι → Option σ) (I : σ → Prop) :
    ∀ (l : List ι), (∀ s i, i ∈ l → I s → g s i = f s i ∧ ∃ s', f s i = some s' ∧ I s') →
      ∀ s, I s → l.foldlM g s = l.foldlM f s := by
  intro l
  induction l with
  | nil => intro _ s _; rfl
  | cons j l ih =>
    intro hstep s hs
    obtain ⟨hg, s1, e1, i1⟩ := hstep s j (List.mem_cons_self j l) hs
    rw [List.foldlM_cons, List.foldlM_cons, hg, e1]
    exact ih (fun s i hi => hstep s i (List.mem_cons_of_mem j hi)) s1 i1

/-- The loop invariant holds when the loop of the call `generateMaze(x, y)` is
entered. -/
theorem LoopInv.at_entry {size sx sy : Int} {fuel : Nat} (x y : Int) (m : Maze) (k : Nat)
    (hb : inBounds size x y) (inv : GenInv size sx sy (setCell m x y CellType.PATH))
    (hfuel : wallCount size (setCell m x y CellType.PATH) < fuel + 1) :
    LoopInv size sx sy (fuel + 1) x y m (setCell m x y CellType.PATH, k) := by
  have hP : CellType.PATH ≠ CellType.WALL := by decide
  have hex : cellAt m x y ≠ none :=
    (cellAt_setCell_ne_none m x y x y CellType.PATH).1 ((inv.dom x y).2 hb)
  refine ⟨inv, (isOpen_setCell m x y _ hP (x, y)).2 (Or.inr ⟨rfl, hex⟩), hfuel, ?_⟩
  intro a _ hao
  rcases (isOpen_setCell m x y _ hP a).1 hao with h | ⟨h, _⟩
  · exact Or.inr (Or.inl h)
  · exact Or.inl h

/-- One iteration of the exploration loop without the `hasThreeWalls`
condition does what the iteration of the source does, on the states of the
loop invariant. -/
theorem exploreDirNoCheck_eq {size sx sy : Int} {draws : Nat → Nat} {fuel : Nat}
    (ih : ∀ (x y : Int) (m : Maze) (k : Nat),
      inBounds size x y → onLattice sx sy (x, y) →
      GenInv size sx sy (setCell m x y CellType.PATH) →
      wallCount size (setCell m x y CellType.PATH) < fuel →
      generateMazeNoCheck size draws fuel x y m k = generateMaze size draws fuel x y m k)
    (x y : Int) (m : Maze) (hlat : onLattice sx sy (x, y)) (dx dy : Int)
    (hd : dx.natAbs + dy.natAbs = 1) (st : Maze × Nat)
    (hst : LoopInv size sx sy (fuel + 1) x y m st) :
    exploreDirNoCheck (generateMazeNoCheck size draws fuel) size x y dx dy st =
      exploreDir (generateMaze size draws fuel) size x y dx dy st := by
  unfold exploreDirNoCheck exploreDir
  simp only
  by_cases hv : isValidPosition size st.1 (x + 2 * dx) (y + 2 * dy) = true
  · obtain ⟨htb, htl, h3, _, _, _, inv, hcount⟩ := hst.valid_target hlat dx dy hd hv
    have hcond : (isValidPosition size st.1 (x + 2 * dx) (y + 2 * dy) &&
        !hasThreeWalls size st.1 (x + 2 * dx) (y + 2 * dy)) = true := by
      rw [hv, h3]
      rfl
    rw [if_pos hv, if_pos hcond]
    exact ih _ _ _ _ htb htl inv hcount
  · have hcond : ¬ (isValidPosition size st.1 (x + 2 * dx) (y + 2 * dy) &&
        !hasThreeWalls size st.1 (x + 2 * dx) (y + 2 * dy)) = true := by
      simp only [Bool.not_eq_true] at hv
      rw [hv, Bool.false_and]
      exact Bool.false_ne_true
    rw [if_neg hv, if_neg hcond]

/-- The carving without the `hasThreeWalls` condition computes what
`generateMaze` computes, on every grid that meets the hypotheses of the
specification of `generateMaze`. -/
theorem generateMazeNoCheck_eq (size sx sy : Int) (draws : Nat → Nat) :
    ∀ (fuel : Nat) (x y : Int) (m : Maze) (k : Nat),
      inBounds size x y → onLattice sx sy (x, y) →
      GenInv size sx sy (setCell m x y CellType.PATH) →
      wallCount size (setCell m x y CellType.PATH) < fuel →
      generateMazeNoCheck size draws fuel x y m k = generateMaze size draws fuel x y m k := by
  intro fuel
  induction fuel with
  | zero => intro x y m k _ _ _ _; rfl
  | succ fuel ih =>
    intro x y m k hb hlat inv hfuel
    obtain ⟨_, hunit, _⟩ := shuffleDirs_spec draws k
    show [0, 1, 2, 3].foldlM
        (fun st i => exploreDirNoCheck (generateMazeNoCheck size draws fuel) size x y
          ((shuffleDirs draws k).1.getD i 0) ((shuffleDirs draws k).2.1.getD i 0) st)
        (setCell m x y CellType.PATH, (shuffleDirs draws k).2.2) =
      [0, 1, 2, 3].foldlM
        (fun st i => exploreDir (generateMaze size draws fuel) size x y
          ((shuffleDirs draws k).1.getD i 0) ((shuffleDirs draws k).2.1.getD i 0) st)
        (setCell m x y CellType.PATH, (shuffleDirs draws k).2.2)
    refine foldlM_option_congr _ _ (LoopInv size sx sy (fuel + 1) x y m) [0, 1, 2, 3] ?_ _
      (LoopInv.at_entry x y m _ hb inv hfuel)
    intro st i hi hst
    refine ⟨exploreDirNoCheck_eq ih x y m hlat _ _ (hunit i hi) st hst, ?_⟩
    obtain ⟨s', e', hs', _⟩ :=
      exploreDir_spec (generateMaze_spec size sx sy draws fuel) x y m hlat _ _ (hunit i hi) st hst
    exact ⟨s', e', hs'⟩

/-- C13: for every size, every in-bounds seed and every sequence of draws,
in the run of `generateMaze` from the all-wall grid (any fuel above
`size * size`), every evaluation of `hasThreeWalls` is on a target that passed
`isValidPosition`, that has no `PATH` 4-neighbour in the grid of that moment,
and returns false; the carving with the `hasThreeWalls` condition removed
returns the same grid and the same position in the stream of draws, and the
constructor built on it returns the same grid as the constructor of the
source, which returns. -/
theorem hasThreeWalls_never_rejects (size sx sy : Int) (draws : Nat → Nat)
    (hx : 0 ≤ sx ∧ sx < size) (hy : 0 ≤ sy ∧ sy < size) (fuel : Nat)
    (hfuel : size.toNat * size.toNat < fuel) :
    ∃ maze k log,
      generateMazeLogged size draws fuel sx sy (allWalls size) 0 [] = some (maze, k, log) ∧
      generateMaze size draws fuel sx sy (allWalls size) 0 = some (maze, k) ∧
      (∀ x y g, GenEvent.check x y g ∈ log →
        isValidPosition size g x y = true ∧
        (∀ b : Int × Int, adjacent4 (x, y) b → cellAt g b.1 b.2 ≠ some CellType.PATH) ∧
        hasThreeWalls size g x y = false) ∧
      generateMazeNoCheck size draws fuel sx sy (allWalls size) 0 = some (maze, k) ∧
      MazeGeneratorNoCheck size sx sy draws = MazeGenerator size sx sy draws ∧
      ∃ grid, MazeGenerator size sx sy draws = some grid := by
  have hb : inBounds size sx sy := ⟨hx.1, hx.2, hy.1, hy.2⟩
  have hcount : ∀ n, size.toNat * size.toNat < n →
      wallCount size (setCell (allWalls size) sx sy CellType.PATH) < n :=
    fun n hn => lt_of_le_of_lt (wallCount_le_square size _) hn
  obtain ⟨m, k, log, e, hplain, _, _, h2, _⟩ :=
    generateMazeLogged_from_allWalls size sx sy draws hb fuel hfuel
  refine ⟨m, k, log, e, hplain, h2, ?_, ?_, ?_⟩
  · rw [generateMazeNoCheck_eq size sx sy draws fuel sx sy (allWalls size) 0 hb ⟨rfl, rfl⟩
      (GenInv.init size sx sy) (hcount fuel hfuel)]
    exact hplain
  · unfold MazeGeneratorNoCheck MazeGenerator
    rw [generateMazeNoCheck_eq size sx sy draws (size.toNat * size.toNat + 1) sx sy
      (allWalls size) 0 hb ⟨rfl, rfl⟩ (GenInv.init size sx sy)
      (hcount _ (Nat.lt_succ_self _))]
  · obtain ⟨m0, k0, e0, _, _⟩ := generateMaze_from_allWalls size sx sy draws hb
    exact ⟨_, MazeGenerator_eq size sx sy draws m0 k0 e0⟩

/-- Witness of C13: size 5, seed (1, 1), fuel 26. -/
theorem hasThreeWalls_never_rejects_witness :
    ∃ maze k log,
      generateMazeLogged 5 (fun n => n * 7 + 3) 26 1 1 (allWalls 5) 0 [] = some (maze, k, log) ∧
      generateMaze 5 (fun n => n * 7 + 3) 26 1 1 (allWalls 5) 0 = some (maze, k) ∧
      (∀ x y g, GenEvent.check x y g ∈ log →
        isValidPosition 5 g x y = true ∧
        (∀ b : Int × Int, adjacent4 (x, y) b → cellAt g b.1 b.2 ≠ some CellType.PATH) ∧
        hasThreeWalls 5 g x y = false) ∧
      generateMazeNoCheck 5 (fun n => n * 7 + 3) 26 1 1 (allWalls 5) 0 = some (maze, k) ∧
      MazeGeneratorNoCheck 5 1 1 (fun n => n * 7 + 3) = MazeGenerator 5 1 1 (fun n => n * 7 + 3) ∧
      ∃ grid, MazeGenerator 5 1 1 (fun n => n * 7 + 3) = some grid :=
  hasThreeWalls_never_rejects 5 1 1 (fun n => n * 7 + 3) (by decide) (by decide) 26 (by decide)

/-! ## Rounding and single precision -/

/-- The function `std::round` computes the rounding of the specification. -/
theorem isRoundOf_iff (v : ℚ) (n : Int) : IsRoundOf v n ↔ cRound v = n := by
  rw [cRound_eq_iff]
  unfold IsRoundOf
  constructor
  · rintro (h | ⟨h1, h2⟩)
    · rw [abs_lt] at h
      rcases le_or_lt 0 v with hv | hv
      · exact Or.inl ⟨hv, by linarith, by linarith⟩
      · exact Or.inr ⟨hv, by linarith, by linarith⟩
    · rcases le_or_lt 0 v with hv | hv
      · left
        rw [abs_of_nonneg hv] at h2
        rcases (abs_eq (by norm_num : (0 : ℚ) ≤ 1 / 2)).1 h1 with h | h
        · exfalso
          have : (n : ℚ) ≤ |(n : ℚ)| := le_abs_self _
          have hn : (0 : ℚ) ≤ n ∨ (n : ℚ) < 0 := le_or_lt 0 _
          rcases hn with hn | hn
          · rw [abs_of_nonneg hn] at h2; linarith
          · have h3 : (n : ℚ) ≤ -1 := by
              have : n < 0 := by exact_mod_cast hn
              have : n ≤ -1 := by omega
              exact_mod_cast this
            linarith
        · exact ⟨hv, by linarith, by linarith⟩
      · right
        rw [abs_of_neg hv] at h2
        rcases (abs_eq (by norm_num : (0 : ℚ) ≤ 1 / 2)).1 h1 with h | h
        · exact ⟨hv, by linarith, by linarith⟩
        · exfalso
          rcases le_or_lt (n : ℚ) 0 with hn | hn
          · rw [abs_of_nonpos hn] at h2; linarith
          · have h3 : (1 : ℚ) ≤ n := by
              have : 0 < n := by exact_mod_cast hn
              have : 1 ≤ n := by omega
              exact_mod_cast this
            linarith
  · rintro (⟨hv, h1, h2⟩ | ⟨hv, h1, h2⟩)
    · rcases eq_or_lt_of_le h1 with h | h
      · right
        have hn : (1 : ℚ) ≤ n := by
          have : (0 : ℚ) < n := by linarith
          have : 0 < n := by exact_mod_cast this
          have : 1 ≤ n := by omega
          exact_mod_cast this
        refine ⟨?_, ?_⟩
        · rw [← h]
          have : (n : ℚ) - 1 / 2 - n = -(1 / 2) := by ring
          rw [this, abs_neg, abs_of_pos (by norm_num)]
        · rw [abs_of_nonneg hv, abs_of_nonneg (by linarith)]
          linarith
      · left
        rw [abs_lt]
        exact ⟨by linarith, by linarith⟩
    · rcases eq_or_lt_of_le h2 with h | h
      · right
        have hn : (n : ℚ) ≤ -1 := by
          have : (n : ℚ) < 0 := by linarith
          have : n < 0 := by exact_mod_cast this
          have : n ≤ -1 := by omega
          exact_mod_cast this
        refine ⟨?_, ?_⟩
        · rw [h]
          have : (n : ℚ) + 1 / 2 - n = 1 / 2 := by ring
          rw [this, abs_of_pos (by norm_num)]
        · rw [abs_of_neg hv, abs_of_nonpos (by linarith)]
          linarith
      · left
        rw [abs_lt]
        exact ⟨by linarith, by linarith⟩

/-- The exponent used by `toFloat`, from a bracketing of the magnitude by
powers of two. -/
theorem log_two_abs (v : ℚ) (e : Int) (h1 : (2 : ℚ) ^ e ≤ |v|) (h2 : |v| < (2 : ℚ) ^ (e + 1)) :
    Int.log 2 |v| = e := by
  have hpos : (0 : ℚ) < |v| := lt_of_lt_of_le (zpow_pos (by norm_num) e) h1
  have hb : 1 < (2 : ℕ) := by norm_num
  have c : ((2 : ℕ) : ℚ) = 2 := by norm_num
  apply le_antisymm
  · have := (Int.lt_zpow_iff_log_lt hb hpos (x := e + 1)).1 (by rw [c]; exact h2)
    omega
  · exact (Int.zpow_le_iff_le_log hb hpos).1 (by rw [c]; exact h1)

/-- The value of `toFloat` in the normal range, from a bracketing of the
magnitude by powers of two. -/
theorem toFloat_of_exponent (v : ℚ) (e : Int) (he : -126 ≤ e) (h1 : (2 : ℚ) ^ e ≤ |v|)
    (h2 : |v| < (2 : ℚ) ^ (e + 1)) :
    toFloat v = roundHalfEven (v / 2 ^ (e - 23)) * 2 ^ (e - 23) := by
  unfold toFloat
  simp only
  rw [log_two_abs v e h1 h2, max_eq_left he]

/-- The function `roundHalfEven` moves its argument by at most a half. -/
theorem roundHalfEven_error (q : ℚ) : |(roundHalfEven q : ℚ) - q| ≤ 1 / 2 := by
  have hf1 : ((⌊q⌋ : Int) : ℚ) ≤ q := Int.floor_le q
  have hf2 : q < ((⌊q⌋ : Int) : ℚ) + 1 := Int.lt_floor_add_one q
  unfold roundHalfEven
  simp only
  rw [abs_le]
  split_ifs with h1 h2 h3 <;> push_cast <;> constructor <;> linarith

/-- The conversion to `float` moves a value of the normal range by at most
the fraction `2 ^ (-24)` of its magnitude. -/
theorem toFloat_error (v : ℚ) (hv : (2 : ℚ) ^ (-126 : Int) ≤ |v|) :
    |toFloat v - v| ≤ |v| / 2 ^ 24 := by
  have hpos : (0 : ℚ) < |v| := lt_of_lt_of_le (zpow_pos (by norm_num) _) hv
  have hb : 1 < (2 : ℕ) := by norm_num
  have c : ((2 : ℕ) : ℚ) = 2 := by norm_num
  have he : -126 ≤ Int.log 2 |v| :=
    (Int.zpow_le_iff_le_log hb hpos).1 (by rw [c]; exact hv)
  have h1 : (2 : ℚ) ^ (Int.log 2 |v|) ≤ |v| := by
    have := Int.zpow_log_le_self hb hpos
    rwa [c] at this
  unfold toFloat
  simp only
  rw [max_eq_left he]
  generalize Int.log 2 |v| = e at h1
  have hu : (0 : ℚ) < 2 ^ (e - 23) := zpow_pos (by norm_num) _
  have hq := roundHalfEven_error (v / 2 ^ (e - 23))
  have e1 : (roundHalfEven (v / 2 ^ (e - 23)) : ℚ) * 2 ^ (e - 23) - v
      = ((roundHalfEven (v / 2 ^ (e - 23)) : ℚ) - v / 2 ^ (e - 23)) * 2 ^ (e - 23) := by
    field_simp
  rw [e1, abs_mul, abs_of_pos hu]
  have e2 : (2 : ℚ) ^ (e - 23) = 2 ^ e / 2 ^ 23 := by
    rw [zpow_sub₀ (by norm_num)]
    norm_num
  calc |(roundHalfEven (v / 2 ^ (e - 23)) : ℚ) - v / 2 ^ (e - 23)| * 2 ^ (e - 23)
      ≤ 1 / 2 * 2 ^ (e - 23) := mul_le_mul_of_nonneg_right hq hu.le
    _ = 2 ^ e / 2 ^ 24 := by rw [e2]; ring
    _ ≤ |v| / 2 ^ 24 := by
      apply div_le_div_of_nonneg_right h1
      positivity

/-- The value 1 is a `float`. -/
theorem toFloat_one : toFloat 1 = 1 := by
  rw [toFloat_of_exponent 1 0 (by norm_num) (by norm_num) (by norm_num)]
  simp only [roundHalfEven]
  norm_num

/-- The `double` value `0.5 - 2 ^ (-30)` is converted to the `float` 0.5. -/
theorem toFloat_below_half : toFloat (536870911 / 1073741824) = 1 / 2 := by
  rw [toFloat_of_exponent _ (-2) (by norm_num) (by norm_num [abs_of_pos]) (by norm_num [abs_of_pos])]
  simp only [roundHalfEven]
  norm_num

/-! ## Move check -/

/-- The function `Narrowed.checkMove` is `checkMove` on the converted coordinates. -/
theorem narrowed_checkMove_eq (mazeVec : Maze) (pos : Vec3) :
    Narrowed.checkMove mazeVec pos
      = cellFree mazeVec (cRound (toFloat pos.x)) (cRound (toFloat pos.y)) := rfl

/-- The test `cellFree`, spelled out. -/
theorem cellFree_iff (mazeVec : Maze) (i j : Int) :
    cellFree mazeVec i j = true ↔
      (0 ≤ i ∧ i < (mazeVec.length : Int) ∧ 0 ≤ j ∧ j < ((mazeVec.getD 0 []).length : Int)) ∧
        cellAt mazeVec i j ≠ some CellType.WALL := by
  unfold cellFree
  simp only [ge_iff_le]
  split_ifs with h1 h2
  · exact ⟨fun h => (by cases h), fun h => absurd h2 h.2⟩
  · exact ⟨fun _ => ⟨h1, h2⟩, fun _ => rfl⟩
  · exact ⟨fun h => (by cases h), fun h => absurd h.1 h1⟩

/-- C4 (counterexample): in `sampleMaze` the position with
`x = 0.5 - 2 ^ (-30)` and `y = 1` has the rounded cell
`(round x, round y) = (0, 1)`, which is a wall, yet `checkMove` accepts it:
the conversion to `float` at the call of `getMazeIndex` turns `x` into 0.5,
which rounds to 1. -/
theorem checkMove_narrowing_counterexample :
    IsRoundOf (536870911 / 1073741824) 0 ∧ IsRoundOf 1 1 ∧
    cellAt sampleMaze 0 1 = some CellType.WALL ∧
    toFloat (536870911 / 1073741824) = 1 / 2 ∧
    Narrowed.checkMove sampleMaze ⟨536870911 / 1073741824, 1, 1 / 4⟩ = true := by
  have r1 : cRound (1 / 2 : ℚ) = 1 := by simp only [cRound]; norm_num
  have r2 : cRound (1 : ℚ) = 1 := by simp only [cRound]; norm_num
  refine ⟨?_, ?_, by decide, toFloat_below_half, ?_⟩
  · left
    rw [abs_lt]
    constructor <;> norm_num
  · left
    rw [abs_lt]
    constructor <;> norm_num
  · rw [narrowed_checkMove_eq]
    simp only [toFloat_below_half, toFloat_one, r1, r2]
    decide

/-- C4 (amended): `checkMove` accepts a position exactly when the cell
obtained by rounding the coordinates converted to `float` is inside the
grid (row index below the number of rows, column index below the number of
columns of row 0) and is not tagged `WALL`; so it rejects every position
for which that cell is a wall or outside the grid, and accepts the cells
tagged `PATH`, `START` and `END`. When the conversion leaves both
coordinates as they are, the cell is `(round x, round y)`; in the normal
range the conversion moves a coordinate by at most the fraction `2 ^ (-24)`
of its magnitude. -/
theorem checkMove_iff (mazeVec : Maze) (pos : Vec3) :
    (Narrowed.checkMove mazeVec pos = true ↔
      ∃ i j : Int, IsRoundOf (toFloat pos.x) i ∧ IsRoundOf (toFloat pos.y) j ∧
        (0 ≤ i ∧ i < (mazeVec.length : Int) ∧ 0 ≤ j ∧ j < ((mazeVec.getD 0 []).length : Int)) ∧
        cellAt mazeVec i j ≠ some CellType.WALL) ∧
    (∀ i j : Int, IsRoundOf (toFloat pos.x) i → IsRoundOf (toFloat pos.y) j →
      cellAt mazeVec i j = some CellType.WALL → Narrowed.checkMove mazeVec pos = false) ∧
    (∀ i j : Int, IsRoundOf (toFloat pos.x) i → IsRoundOf (toFloat pos.y) j →
      ¬ (0 ≤ i ∧ i < (mazeVec.length : Int) ∧ 0 ≤ j ∧ j < ((mazeVec.getD 0 []).length : Int)) →
      Narrowed.checkMove mazeVec pos = false) ∧
    (∀ (i j : Int) (t : CellType), IsRoundOf (toFloat pos.x) i → IsRoundOf (toFloat pos.y) j →
      (0 ≤ i ∧ i < (mazeVec.length : Int) ∧ 0 ≤ j ∧ j < ((mazeVec.getD 0 []).length : Int)) →
      cellAt mazeVec i j = some t →
      (t = CellType.PATH ∨ t = CellType.START ∨ t = CellType.END) →
      Narrowed.checkMove mazeVec pos = true) ∧
    (toFloat pos.x = pos.x → toFloat pos.y = pos.y →
      (Narrowed.checkMove mazeVec pos = true ↔
        ∃ i j : Int, IsRoundOf pos.x i ∧ IsRoundOf pos.y j ∧
          (0 ≤ i ∧ i < (mazeVec.length : Int) ∧ 0 ≤ j ∧
            j < ((mazeVec.getD 0 []).length : Int)) ∧
          cellAt mazeVec i j ≠ some CellType.WALL)) ∧
    ((2 : ℚ) ^ (-126 : Int) ≤ |pos.x| → |toFloat pos.x - pos.x| ≤ |pos.x| / 2 ^ 24) ∧
    ((2 : ℚ) ^ (-126 : Int) ≤ |pos.y| → |toFloat pos.y - pos.y| ≤ |pos.y| / 2 ^ 24) := by
  have key : Narrowed.checkMove mazeVec pos = true ↔
      ∃ i j : Int, IsRoundOf (toFloat pos.x) i ∧ IsRoundOf (toFloat pos.y) j ∧
        (0 ≤ i ∧ i < (mazeVec.length : Int) ∧ 0 ≤ j ∧ j < ((mazeVec.getD 0 []).length : Int)) ∧
        cellAt mazeVec i j ≠ some CellType.WALL := by
    rw [narrowed_checkMove_eq, cellFree_iff]
    constructor
    · intro h
      exact ⟨_, _, (isRoundOf_iff _ _).2 rfl, (isRoundOf_iff _ _).2 rfl, h⟩
    · rintro ⟨i, j, hi, hj, h⟩
      rw [(isRoundOf_iff _ _).1 hi, (isRoundOf_iff _ _).1 hj]
      exact h
  refine ⟨key, ?_, ?_, ?_, ?_, toFloat_error pos.x, toFloat_error pos.y⟩
  · intro i j hi hj hw
    cases h : Narrowed.checkMove mazeVec pos with
    | false => rfl
    | true =>
      obtain ⟨i', j', hi', hj', _, hne⟩ := key.1 h
      have ei : i' = i := ((isRoundOf_iff _ _).1 hi').symm.trans ((isRoundOf_iff _ _).1 hi)
      have ej : j' = j := ((isRoundOf_iff _ _).1 hj').symm.trans ((isRoundOf_iff _ _).1 hj)
      rw [ei, ej] at hne
      exact absurd hw hne
  · intro i j hi hj hn
    cases h : Narrowed.checkMove mazeVec pos with
    | false => rfl
    | true =>
      obtain ⟨i', j', hi', hj', hin, _⟩ := key.1 h
      have ei : i' = i := ((isRoundOf_iff _ _).1 hi').symm.trans ((isRoundOf_iff _ _).1 hi)
      have ej : j' = j := ((isRoundOf_iff _ _).1 hj').symm.trans ((isRoundOf_iff _ _).1 hj)
      rw [ei, ej] at hin
      exact absurd hin hn
  · intro i j t hi hj hin ht htag
    refine key.2 ⟨i, j, hi, hj, hin, ?_⟩
    rw [ht]
    rcases htag with h | h | h <;> subst h <;> decide
  · intro hx hy
    rw [key, hx, hy]

/-- Witness of C4 (amended): the position of `sampleMaze` with
`x = 0.5 - 2 ^ (-30)` and `y = 1`, whose converted coordinates round to the
`START` cell (1, 1). -/
theorem checkMove_iff_witness :
    IsRoundOf (toFloat (536870911 / 1073741824)) 1 ∧
    Narrowed.checkMove sampleMaze ⟨536870911 / 1073741824, 1, 1 / 4⟩ = true :=
  have hx : IsRoundOf (toFloat (536870911 / 1073741824)) 1 := by
    rw [toFloat_below_half, isRoundOf_iff]; simp only [cRound]; norm_num
  have hy : IsRoundOf (toFloat 1) 1 := by
    rw [toFloat_one, isRoundOf_iff]; simp only [cRound]; norm_num
  ⟨hx, (checkMove_iff sampleMaze ⟨536870911 / 1073741824, 1, 1 / 4⟩).2.2.2.1 1 1 CellType.START
    hx hy (by decide) (by decide) (Or.inr (Or.inl rfl))⟩

/-- On coordinates that the conversion to `float` leaves as they are,
`Narrowed.checkMove` is `checkMove`. -/
theorem narrowed_checkMove_of_float (mazeVec : Maze) (pos : Vec3)
    (hx : toFloat pos.x = pos.x) (hy : toFloat pos.y = pos.y) :
    Narrowed.checkMove mazeVec pos = checkMove mazeVec pos := by
  rw [narrowed_checkMove_eq, checkMove_eq_cellFree, hx, hy]
  rfl

/-! ## The strict embedding of `handle` -/

end MazeRunner
